import Mathlib

/-!
# Verification of JavascriptMinifier.js (kojikuwabara/javascript-minifier.js)

A shallow embedding of `src/javascriptminifier.js` over `List Char`, together
with theorems settling the frozen claims about the minification engine.

Every regular-expression operation of the source is translated into an
explicit, executable character scanner with the exact matching semantics of
the JavaScript regex engine for that particular pattern (leftmost match,
ordered alternation, lazy/greedy quantifiers, lookarounds where present).
The JavaScript `\s` class, the line terminators recognised by `.` and `$`/`^`
in multiline mode, and the `$`-escape semantics of `String.prototype.replace`
are modelled explicitly.

Scanners that may skip several characters per step are written with an
explicit fuel argument (the input length suffices, as every step consumes at
least one character); this keeps all definitions kernel-computable.
-/

namespace JsMin

/-- Strings are modelled as lists of unicode scalar values. -/
abbrev Str := List Char

/-- Convert a Lean string literal to the model representation. -/
def str (s : String) : Str := s.data

/-- The JavaScript `\s` character class (WhiteSpace ∪ LineTerminator of
ECMAScript): tab, LF, VT, FF, CR, space, NBSP, Ogham space mark, the
` `–` ` spaces, LS, PS, NNBSP, MMSP, ideographic space, BOM. -/
def jsIsSpace (c : Char) : Bool :=
  c = ' ' || c = '\t' || c = '\n' || c = '\r' || c = '\x0b' || c = '\x0c' ||
  c = ' ' || c = ' ' || (0x2000 ≤ c.toNat && c.toNat ≤ 0x200a) ||
  c = ' ' || c = ' ' || c = ' ' || c = ' ' ||
  c = '　' || c = '﻿'

/-- ECMAScript LineTerminator: LF, CR, LS, PS.  These are the characters not
matched by `.` (without the `s` flag) and the positions recognised by `^`/`$`
in multiline mode. -/
def isLineTerm (c : Char) : Bool :=
  c = '\n' || c = '\r' || c = ' ' || c = ' '

/-- ECMAScript word character (for `\b`). -/
def isWordChar (c : Char) : Bool :=
  ('a' ≤ c && c ≤ 'z') || ('A' ≤ c && c ≤ 'Z') || ('0' ≤ c && c ≤ '9') || c = '_'

/-- ASCII-case-insensitive character comparison (the `i` flag). -/
def ciEq (a b : Char) : Bool := a.toLower = b.toLower

/-- Case-insensitive prefix test. -/
def ciIsPrefix : Str → Str → Bool
  | [], _ => true
  | _ :: _, [] => false
  | p :: ps, s :: ss => ciEq p s && ciIsPrefix ps ss

/-- Does `p` occur as a contiguous substring of `s`? -/
def occurs (p : Str) : Str → Bool
  | [] => p.isPrefixOf []
  | c :: rest => p.isPrefixOf (c :: rest) || occurs p rest

/-- Number of (possibly overlapping) occurrence positions of `p` in `s`. -/
def countOcc (p : Str) : Str → Nat
  | [] => if p.isPrefixOf [] then 1 else 0
  | c :: rest => (if p.isPrefixOf (c :: rest) then 1 else 0) + countOcc p rest

/-- `$`-escape processing in a replacement string of
`String.prototype.replace` when the pattern was a plain string `m`:
`$$` inserts `$`, `$&` inserts the matched string; every replacement string
the source ever feeds through this either contains no `$` at all or only the
doubled `$$` pairs produced by its own `replace(/\$/g, '$$$$')` calls, so the
remaining `$`-forms (`` $` ``, `$'`, `$<n>`) never arise. -/
def applyDollar (m : Str) : Str → Str
  | [] => []
  | [c] => [c]
  | c1 :: c2 :: rest =>
    if c1 = '$' && c2 = '$' then '$' :: applyDollar m rest
    else if c1 = '$' && c2 = '&' then m ++ applyDollar m rest
    else c1 :: applyDollar m (c2 :: rest)

/-- `s.replace(p, r)` with a plain-string pattern: replace the first
occurrence of `p` (JavaScript replaces nothing when `p` does not occur, and
applies `$`-processing to `r`). -/
def replaceFirst (p r : Str) : Str → Str
  | [] => if p.isPrefixOf [] then applyDollar p r else []
  | c :: rest =>
    if p.isPrefixOf (c :: rest) then applyDollar p r ++ (c :: rest).drop p.length
    else c :: replaceFirst p r rest

/-- `s.replace(/c/g, r)` for a single character `c`: every occurrence is one
character, so the global replacement is a pointwise map. -/
def replaceAllChar (c r : Char) (s : Str) : Str :=
  s.map (fun x => if x = c then r else x)

/-- `s.replace(/\$/g, "$$$$")`: the replacement string `"$$$$"` denotes the
literal text `$$`, so every `$` is doubled. -/
def escapeDollar (s : Str) : Str :=
  s.flatMap (fun c => if c = '$' then ['$', '$'] else [c])

/-- Leading run of JavaScript whitespace: `(run, rest)`. -/
def spanWs (s : Str) : Str × Str := (s.takeWhile jsIsSpace, s.dropWhile jsIsSpace)

/-- Position of the first occurrence of `pat` in `s` such that no
LineTerminator precedes it (the search performed by a lazy `.*?` without the
`s` flag in front of a literal): `some i` means `pat` starts at index `i` and
`s[0..i)` contains no line terminator. -/
def findNoNL (pat : Str) : Str → Option Nat
  | [] => if pat.isPrefixOf [] then some 0 else none
  | c :: rest =>
    if pat.isPrefixOf (c :: rest) then some 0
    else if isLineTerm c then none
    else (findNoNL pat rest).map (· + 1)

/-- Position of the first occurrence of `pat` in `s` (a lazy `[\s\S]*?` in
front of a literal). -/
def findSub (pat : Str) : Str → Option Nat
  | [] => if pat.isPrefixOf [] then some 0 else none
  | c :: rest =>
    if pat.isPrefixOf (c :: rest) then some 0
    else (findSub pat rest).map (· + 1)

/-- Index of the first occurrence of character `c` in `s`. -/
def findChar (c : Char) : Str → Option Nat
  | [] => none
  | x :: rest => if x = c then some 0 else (findChar c rest).map (· + 1)

/-! ## Comment removal (source lines 198–201)

`removeHTMLComment = arg => arg.replace(/<!--.*?-->/gm, '')`.
Without the `s` flag `.` does not match a line terminator, so only HTML
comments lying on a single line are removed. -/

def removeHTMLCommentAux : Nat → Str → Str
  | 0, s => s
  | fuel + 1, s =>
    match s with
    | [] => []
    | c :: rest =>
      if (str "<!--").isPrefixOf (c :: rest) then
        match findNoNL (str "-->") ((c :: rest).drop 4) with
        | some j => removeHTMLCommentAux fuel ((c :: rest).drop (4 + j + 3))
        | none => c :: removeHTMLCommentAux fuel rest
      else c :: removeHTMLCommentAux fuel rest

def removeHTMLComment (s : Str) : Str := removeHTMLCommentAux s.length s

/-- `removeSLComment = arg => arg.replace(/(?<!:)(//).*$/gm, '')`:
delete `//` and the rest of its line unless the `//` is immediately preceded
by `:`.  The lookbehind inspects the original text, so the scanner carries
the previous character. -/
def removeSLCommentAux : Nat → Option Char → Str → Str
  | 0, _, s => s
  | fuel + 1, prev, s =>
    match s with
    | [] => []
    | c :: rest =>
      if (str "//").isPrefixOf (c :: rest) && prev ≠ some ':' then
        -- `.*$` consumes up to (not including) the next line terminator
        let k := (c :: rest).takeWhile (fun x => !isLineTerm x) |>.length
        let last := ((c :: rest).take k).getLast?
        removeSLCommentAux fuel last ((c :: rest).drop k)
      else c :: removeSLCommentAux fuel (some c) rest

def removeSLComment (s : Str) : Str := removeSLCommentAux s.length none s

/-- `tabCrlfToSpace = arg => arg.replace(/(\t|\r\n|\n)/g, ' ')`.
A lone `\r` is not matched and survives. -/
def tabCrlfToSpace : Str → Str
  | [] => []
  | '\r' :: '\n' :: rest => ' ' :: tabCrlfToSpace rest
  | c :: rest => if c = '\t' || c = '\n' then ' ' :: tabCrlfToSpace rest else c :: tabCrlfToSpace rest

/-- `removeMLComment = arg => arg.replace(//\*.*?\*//gm, '')`:
again `.` does not cross line terminators (the pipeline has already turned
tabs and newlines into spaces when this runs). -/
def removeMLCommentAux : Nat → Str → Str
  | 0, s => s
  | fuel + 1, s =>
    match s with
    | [] => []
    | c :: rest =>
      if (str "/*").isPrefixOf (c :: rest) then
        match findNoNL (str "*/") ((c :: rest).drop 2) with
        | some j => removeMLCommentAux fuel ((c :: rest).drop (2 + j + 2))
        | none => c :: removeMLCommentAux fuel rest
      else c :: removeMLCommentAux fuel rest

def removeMLComment (s : Str) : Str := removeMLCommentAux s.length s

/-! ## Regex-ambiguity escaping (source lines 211–213)

`escapeQuotInRegexPattern = arg => arg.replace(/(\/[^\/]*?)"([^\/]*?\/)/g, "$1\u000e$2")`
and the analogous apostrophe/backtick versions.  A match needs an opening
`/`, then (lazily) a quote before the next `/`, then that next `/`; the first
quote between a pair of slashes is rewritten to the control marker, and the
scan resumes after the closing slash. -/

/-- The control markers (SO, SI, DLE). -/
def chSO : Char := '\x0e'
def chSI : Char := '\x0f'
def chDLE : Char := '\x10'

/-- One step of `/(\/[^\/]*?)q([^\/]*?\/)/`: at an opening slash `'/' :: t`,
find the segment up to the next `/` in `t`; a match exists iff that next
slash exists and the segment contains `q`.  Returns
`some (beforeQuote, afterQuote, rest)` where `rest` starts after the closing
slash. -/
def regexEscStep (q : Char) (t : Str) : Option (Str × Str × Str) :=
  match findChar '/' t with
  | none => none
  | some f =>
    let seg := t.take f
    match findChar q seg with
    | none => none
    | some i => some (seg.take i, seg.drop (i + 1), t.drop (f + 1))

def escapeCharInRegexAux (q m : Char) : Nat → Str → Str
  | 0, s => s
  | fuel + 1, s =>
    match s with
    | [] => []
    | c :: rest =>
      if c = '/' then
        match regexEscStep q rest with
        | some (a, b, rest') =>
          '/' :: (a ++ m :: b ++ ['/']) ++ escapeCharInRegexAux q m fuel rest'
        | none => c :: escapeCharInRegexAux q m fuel rest
      else c :: escapeCharInRegexAux q m fuel rest

def escapeQuotInRegexPattern (s : Str) : Str := escapeCharInRegexAux '"' chSO s.length s
def escapeAposInRegexPattern (s : Str) : Str := escapeCharInRegexAux '\'' chSI s.length s
def escapeBacktickInRegexPattern (s : Str) : Str := escapeCharInRegexAux '`' chDLE s.length s

/-! ## Literal extraction (source lines 214–222)

`escapeLiterals = arg => (arg.match(/`[^`]*?`/gm) || [])
   .concat(arg.replace(/`[^`]*?`/gm, "").match(/("[^"]*?"|'[^']*?')/g))`

`match` with `/g` returns the list of matches or `null`; `Array.concat`
appends a `null` argument as a single element, so when no quoted literal
matches, the resulting array ends with a `null` element.  Elements are
therefore modelled as `Option Str`. -/

/-- All matches of ``/`[^`]*?`/g``: successive pairs of backticks. -/
def matchTemplatesAux : Nat → Str → List Str
  | 0, _ => []
  | fuel + 1, s =>
    match s with
    | [] => []
    | c :: rest =>
      if c = '`' then
        match findChar '`' rest with
        | some i => ('`' :: rest.take i ++ ['`']) :: matchTemplatesAux fuel (rest.drop (i + 1))
        | none => matchTemplatesAux fuel rest
      else matchTemplatesAux fuel rest

def matchTemplates (s : Str) : List Str := matchTemplatesAux s.length s

/-- ``arg.replace(/`[^`]*?`/gm, "")``. -/
def removeTemplatesAux : Nat → Str → Str
  | 0, s => s
  | fuel + 1, s =>
    match s with
    | [] => []
    | c :: rest =>
      if c = '`' then
        match findChar '`' rest with
        | some i => removeTemplatesAux fuel (rest.drop (i + 1))
        | none => c :: removeTemplatesAux fuel rest
      else c :: removeTemplatesAux fuel rest

def removeTemplates (s : Str) : Str := removeTemplatesAux s.length s

/-- All matches of `/("[^"]*?"|'[^']*?')/g`. -/
def matchQuotedAux : Nat → Str → List Str
  | 0, _ => []
  | fuel + 1, s =>
    match s with
    | [] => []
    | c :: rest =>
      if c = '"' then
        match findChar '"' rest with
        | some i => ('"' :: rest.take i ++ ['"']) :: matchQuotedAux fuel (rest.drop (i + 1))
        | none => matchQuotedAux fuel rest
      else if c = '\'' then
        match findChar '\'' rest with
        | some i => ('\'' :: rest.take i ++ ['\'']) :: matchQuotedAux fuel (rest.drop (i + 1))
        | none => matchQuotedAux fuel rest
      else matchQuotedAux fuel rest

def matchQuoted (s : Str) : List Str := matchQuotedAux s.length s

/-- `escapeLiterals` (source line 214). -/
def escapeLiterals (s : Str) : List (Option Str) :=
  let tpls := matchTemplates s
  let quoted := matchQuoted (removeTemplates s)
  tpls.map some ++ (if quoted.isEmpty then [none] else quoted.map some)

/-- `String(i).padStart(5, '0')`: decimal digits of `i`. -/
def natDigitsAux : Nat → Nat → Str
  | 0, _ => []
  | fuel + 1, n =>
    if n < 10 then [Char.ofNat (48 + n)]
    else natDigitsAux fuel (n / 10) ++ [Char.ofNat (48 + n % 10)]

def natDigits (n : Nat) : Str := natDigitsAux (n + 1) n

def pad5 (n : Nat) : Str :=
  let d := natDigits n
  List.replicate (5 - d.length) '0' ++ d

/-- The placeholder `"escapeString_____" + String(i).padStart(5, '0')`. -/
def placeholderStr (i : Nat) : Str := str "escapeString_____" ++ pad5 i

/-- The pattern actually passed to `replace`: `String(null)` is `"null"`. -/
def patOf : Option Str → Str
  | some l => l
  | none => str "null"

/-- `setLiteralsToValiable` (source lines 215–222): replace the first
occurrence of each literal, in sequence order, by its placeholder. -/
def setLiteralsToValiableAux (i : Nat) : List (Option Str) → Str → Str
  | [], text => text
  | l :: ls, text =>
    setLiteralsToValiableAux (i + 1) ls (replaceFirst (patOf l) (placeholderStr i) text)

def setLiteralsToValiable (inputText : Str) (literals : List (Option Str)) : Str :=
  setLiteralsToValiableAux 0 literals inputText

/-- `getLiteralsFromValiable` (source lines 233–241): replace the first
occurrence of each placeholder by `(literals[i] || "").replace(/\$/g,'$$$$')`
(the doubling is undone by the `$`-processing of the outer `replace`). -/
def getLiteralsFromValiableAux (i : Nat) : List (Option Str) → Str → Str
  | [], text => text
  | l :: ls, text =>
    let replacement := escapeDollar (match l with | some x => x | none => [])
    getLiteralsFromValiableAux (i + 1) ls (replaceFirst (placeholderStr i) replacement text)

def getLiteralsFromValiable (inputText : Str) (literals : List (Option Str)) : Str :=
  getLiteralsFromValiableAux 0 literals inputText

/-! ## Whitespace collapsing (source lines 226–230)

``symbols = ["\(", "\)", "\{", "\}", "\[", "\]", "\+", "\-", "=", "u003C", "u003E", ":", ";", ","].join("|")``
(note: the angle-bracket entries are the five-character texts `u003C`/`u003E`
— the `\` that would make them escapes is absent in the source string), and

`pattern = (symbols)\s+|\s+(symbols)|\s+` replaced by `p1 || p2 || ' '`. -/

/-- The single-character symbols of the alternation. -/
def singleSymbol (c : Char) : Bool :=
  c = '(' || c = ')' || c = '{' || c = '}' || c = '[' || c = ']' ||
  c = '+' || c = '-' || c = '=' || c = ':' || c = ';' || c = ','

/-- Match one symbol of the alternation at the head of `s`; at most one
alternative can match at a given position.  Returns the matched symbol text
and the remainder. -/
def symbolAt (s : Str) : Option (Str × Str) :=
  match s with
  | [] => none
  | c :: rest =>
    if singleSymbol c then
      some ([c], rest)
    else if (str "u003C").isPrefixOf (c :: rest) then
      some (str "u003C", (c :: rest).drop 5)
    else if (str "u003E").isPrefixOf (c :: rest) then
      some (str "u003E", (c :: rest).drop 5)
    else none

def removeSpaceAux : Nat → Str → Str
  | 0, s => s
  | fuel + 1, s =>
    match s with
    | [] => []
    | c :: rest =>
      match symbolAt (c :: rest) with
      | some (sym, r) =>
        -- alternative 1: `(sym)\s+` — keep the symbol, drop the run
        if r.head?.any jsIsSpace then
          sym ++ removeSpaceAux fuel (r.dropWhile jsIsSpace)
        else
          -- no alternative matches here; the scan advances one character
          c :: removeSpaceAux fuel rest
      | none =>
        if jsIsSpace c then
          let r := (c :: rest).dropWhile jsIsSpace
          match symbolAt r with
          | some (sym, r') => sym ++ removeSpaceAux fuel r'  -- alternative 2: `\s+(sym)`
          | none => ' ' :: removeSpaceAux fuel r             -- alternative 3: `\s+` → one space
        else c :: removeSpaceAux fuel rest

def removeSpace (s : Str) : Str := removeSpaceAux s.length s

/-! ## Restoration of regex-ambiguity markers (source lines 242–244) -/

def restoreBacktickInRegexPattern (s : Str) : Str := replaceAllChar chDLE '`' s
def restoreAposInRegexPattern (s : Str) : Str := replaceAllChar chSI '\'' s
def restoreQuotInRegexPattern (s : Str) : Str := replaceAllChar chSO '"' s

/-! ## Comment preservation (source lines 247–249) -/

/-- All matches of `/\/\*![\s\S]*?\*\//gm`. -/
def preserveCommentAux : Nat → Str → List Str
  | 0, _ => []
  | fuel + 1, s =>
    match s with
    | [] => []
    | c :: rest =>
      if (str "/*!").isPrefixOf (c :: rest) then
        match findSub (str "*/") ((c :: rest).drop 3) with
        | some j =>
          ((c :: rest).take (3 + j + 2)) :: preserveCommentAux fuel ((c :: rest).drop (3 + j + 2))
        | none => preserveCommentAux fuel rest
      else preserveCommentAux fuel rest

/-- `preserveComment = arg => arg.match(/\/\*![\s\S]*?\*\//gm)`
(`null` when there is no match). -/
def preserveComment (s : Str) : Option (List Str) :=
  match preserveCommentAux s.length s with
  | [] => none
  | l => some l

/-- `comments.join("\n")`. -/
def joinNL : List Str → Str
  | [] => []
  | [c] => c
  | c :: cs => c ++ '\n' :: joinNL cs

/-- `concatComments = (text, comments) => comments ? comments.join("\n") + "\n" + text : text`. -/
def concatComments (text : Str) : Option (List Str) → Str
  | none => text
  | some cs => joinNL cs ++ '\n' :: text

/-- Parse the prefix `^\s*\<\s*script\s*\>` (anchored at the start of the
string; `\s*` is greedy and each continuation starts with a non-space
character, so matching is deterministic).  Returns the matched prefix and
the remainder. -/
def parseScriptOpen (s : Str) : Option (Str × Str) :=
  let (w1, r1) := spanWs s
  match r1 with
  | '<' :: r2 =>
    let (w2, r3) := spanWs r2
    if (str "script").isPrefixOf r3 then
      let r4 := r3.drop 6
      let (w3, r5) := spanWs r4
      match r5 with
      | '>' :: r6 => some (w1 ++ '<' :: w2 ++ str "script" ++ w3 ++ ['>'], r6)
      | _ => none
    else none
  | _ => none

/-- `spliceComennts = (text, comments) => comments ?
text.replace(/(^\s*\<\s*script\s*\>)/g, "$1\n" + comments.join("\n") + "\n") : text`.
The `^` is not multiline, so at most the leading script tag is matched. -/
def spliceComennts (text : Str) : Option (List Str) → Str
  | none => text
  | some cs =>
    match parseScriptOpen text with
    | some (pre, rest) => pre ++ '\n' :: joinNL cs ++ '\n' :: rest
    | none => text

/-- Source line 282:
`modifiedJsCode.replace(/(^\s*\<\s*script\s*\>\s+)/, "<script>")` —
a leading (whitespace-padded) `<script>` tag followed by at least one
whitespace character is normalised to the bare text `<script>`. -/
def stripLeadingScriptTag (s : Str) : Str :=
  match parseScriptOpen s with
  | some (_, rest) =>
    if rest.head?.any jsIsSpace then str "<script>" ++ rest.dropWhile jsIsSpace
    else s
  | none => s

/-! ## `minifyJsCode` (source lines 189–290) -/

def minifyJsCode (inputJsCode : Str) (isEmbed : Bool) : Str :=
  -- Remove comments
  let m1 := removeHTMLComment inputJsCode
  let m2 := removeSLComment m1
  let m3 := tabCrlfToSpace m2
  let m4 := removeMLComment m3
  -- Escape literals
  let escapedLiterals := escapeLiterals m4
  let m5 := setLiteralsToValiable m4 escapedLiterals
  -- Escape symbols in regex patterns
  let m6 := escapeQuotInRegexPattern m5
  let m7 := escapeAposInRegexPattern m6
  let m8 := escapeBacktickInRegexPattern m7
  -- Remove spaces
  let m9 := removeSpace m8
  -- Restore literals
  let m10 := getLiteralsFromValiable m9 escapedLiterals
  let m11 := restoreBacktickInRegexPattern m10
  let m12 := restoreAposInRegexPattern m11
  let m13 := restoreQuotInRegexPattern m12
  -- Add preserved comments
  let preservedComments := preserveComment inputJsCode
  let m14 := stripLeadingScriptTag m13
  if isEmbed then spliceComennts m14 preservedComments
  else concatComments m14 preservedComments

/-- Stages m5-m14 of `minifyJsCode` (literal escaping through leading-tag
stripping) as one function of the comment-stripped text m4. -/
def midPipeline (m : Str) : Str :=
  stripLeadingScriptTag (restoreQuotInRegexPattern (restoreAposInRegexPattern
    (restoreBacktickInRegexPattern (getLiteralsFromValiable (removeSpace
    (escapeBacktickInRegexPattern (escapeAposInRegexPattern (escapeQuotInRegexPattern
    (setLiteralsToValiable m (escapeLiterals m)))))) (escapeLiterals m)))))

/-! ## `minifyJsInHtml` (source lines 140–177) -/

/-- `ESCAPED_SCRIPT_TAG = "\\u003C" + "\/script " + " \\u003E"`: the literal
21-character text `\u003C/script  \u003E` (the `\u` are escaped backslashes
in the source, so they are text, not escapes; note the two spaces). -/
def ESCAPED_SCRIPT_TAG : Str := str "\\u003C/script  \\u003E"

/-- First case-insensitive occurrence of `pat` in `s`. -/
def findCiSub (pat : Str) : Str → Option Nat
  | [] => if ciIsPrefix pat [] then some 0 else none
  | c :: rest =>
    if ciIsPrefix pat (c :: rest) then some 0
    else (findCiSub pat rest).map (· + 1)

/-- `=+?\s+?[`]` can match somewhere in `t`: some `=` followed by a nonempty
whitespace run whose first non-whitespace successor is a backtick. -/
def hasEqWsBacktick : Str → Bool
  | [] => false
  | c :: rest =>
    (c = '=' &&
      (let (w, r) := spanWs rest
       !w.isEmpty && r.head? = some '`')) ||
    hasEqWsBacktick rest

/-- The lookbehind `(?<=\u003Cscript\u003E.*?=+?\s+?[`].*?)` of `escRegex`
(flags `gmis`): the prefix before the match position must contain a
case-insensitive `<script>` followed (anywhere later) by `=`s, whitespace
and a backtick.  Existence after the first `<script>` occurrence is
equivalent to existence after any occurrence. -/
def lookbehindOK (pre : Str) : Bool :=
  match findCiSub (str "<script>") pre with
  | none => false
  | some i => hasEqWsBacktick (pre.drop (i + 8))

/-- The lookahead `(?=.*?[`]{1}?.*?;)`: the suffix after the match must
contain a backtick followed (strictly later) by a semicolon. -/
def lookaheadOK (suf : Str) : Bool :=
  match findChar '`' suf with
  | none => false
  | some a => (suf.drop (a + 1)).contains ';'

/-- `text.replace(escRegex, ESCAPED_SCRIPT_TAG)` where
`escRegex = /((?<=\u003Cscript\u003E.*?=+?\s+?[`].*?)(\u003C\/script\u003E)(?=.*?[`]{1}?.*?;))/gmis`:
every case-insensitive `</script>` whose lookbehind and lookahead hold is
replaced by the sentinel.  Lookarounds inspect the original text, so the
scanner carries the original prefix. -/
def escScriptCloseAux : Nat → Str → Str → Str
  | 0, _, s => s
  | fuel + 1, pre, s =>
    match s with
    | [] => []
    | c :: rest =>
      if ciIsPrefix (str "</script>") (c :: rest) && lookbehindOK pre &&
         lookaheadOK ((c :: rest).drop 9) then
        ESCAPED_SCRIPT_TAG ++
          escScriptCloseAux fuel (pre ++ (c :: rest).take 9) ((c :: rest).drop 9)
      else c :: escScriptCloseAux fuel (pre ++ [c]) rest

def escScriptClose (s : Str) : Str := escScriptCloseAux s.length [] s

/-- All matches of `/\u003Cscript\b[^>]*\u003E(.*?)\u003C\/script\u003E/gs`
(case-sensitive; `.` crosses newlines): `<script`, a word boundary, a run of
non-`>` characters, `>`, then the lazy body up to the first `</script>`. -/
def findScriptTagsAux : Nat → Str → List Str
  | 0, _ => []
  | fuel + 1, s =>
    match s with
    | [] => []
    | c :: rest =>
      if (str "<script").isPrefixOf (c :: rest) &&
         !(((c :: rest).drop 7).head?.any isWordChar) then
        let t7 := (c :: rest).drop 7
        match findChar '>' t7 with
        | some k =>
          match findSub (str "</script>") (t7.drop (k + 1)) with
          | some q =>
            let len := 7 + k + 1 + q + 9
            ((c :: rest).take len) :: findScriptTagsAux fuel ((c :: rest).drop len)
          | none => findScriptTagsAux fuel rest
        | none => findScriptTagsAux fuel rest
      else findScriptTagsAux fuel rest

def findScriptTags (s : Str) : List Str := findScriptTagsAux s.length s

/-- Largest index of a line terminator in `w` (for the backtracking of a
greedy `\s*` that must end at a `$` position). -/
def lastLineTermIdx : Str → Option Nat
  | [] => none
  | c :: rest =>
    match lastLineTermIdx rest with
    | some j => some (j + 1)
    | none => if isLineTerm c then some 0 else none

/-- At a `^` position, try to match `\s*MARKER\s*$` (one alternative of the
line-trimming regex).  `\s*` before the marker is deterministic (the marker
starts with a non-space character); the trailing greedy `\s*` backtracks to
the rightmost position at which `$` holds (end of string, or just before a
line terminator).  Returns the match length. -/
def trimAltLen (marker : Str) (s : Str) : Option Nat :=
  let (w1, r1) := spanWs s
  if marker.isPrefixOf r1 then
    let r2 := r1.drop marker.length
    let w2 := r2.takeWhile jsIsSpace
    let after := r2.drop w2.length
    if after.isEmpty then some (w1.length + marker.length + w2.length)
    else
      match lastLineTermIdx w2 with
      | some k => some (w1.length + marker.length + k)
      | none => none
  else none

/-- `scriptTag.replaceAll(/(^\s*\u003C!--\s*$|^\s*--\u003E\s*$)/gm, '')`:
delete every line (in the multiline-anchor sense) consisting of optional
whitespace around a lone `<!--` or `-->` marker.  The scanner tracks whether
the current position is a `^` position. -/
def trimHtmlCommentLinesAux : Nat → Bool → Str → Str
  | 0, _, s => s
  | fuel + 1, atStart, s =>
    match s with
    | [] => []
    | c :: rest =>
      if atStart then
        match trimAltLen (str "<!--") (c :: rest) with
        | some len =>
          let nextStart := ((c :: rest).take len).getLast?.any isLineTerm
          trimHtmlCommentLinesAux fuel nextStart ((c :: rest).drop len)
        | none =>
          match trimAltLen (str "-->") (c :: rest) with
          | some len =>
            let nextStart := ((c :: rest).take len).getLast?.any isLineTerm
            trimHtmlCommentLinesAux fuel nextStart ((c :: rest).drop len)
          | none => c :: trimHtmlCommentLinesAux fuel (isLineTerm c) rest
      else c :: trimHtmlCommentLinesAux fuel (isLineTerm c) rest

def trimHtmlCommentLines (s : Str) : Str := trimHtmlCommentLinesAux s.length true s

/-- The pure transformation performed by `minifyJsInHtml` (lines 146–159):
escape ambiguous `</script>` occurrences, collect the script tags, and for
each one substitute its minified form for the first occurrence of its
original text in the document. -/
def minifyJsInHtmlCore (text : Str) : Str :=
  let escapedText := escScriptClose text
  let scriptTags := findScriptTags escapedText
  scriptTags.foldl
    (fun acc scriptTag =>
      let originalJsCode := replaceFirst ESCAPED_SCRIPT_TAG (str "</script>") scriptTag
      let trimmedScriptTag := trimHtmlCommentLines scriptTag
      let minifiedJsCode := escapeDollar (minifyJsCode trimmedScriptTag true)
      replaceFirst originalJsCode minifiedJsCode acc)
    text

/-! ## Logging state (constructor, `clearLog`, and the log handling of
`minifyJsFile` / `minifyJsInHtml`, source lines 41–44, 98–129, 140–177) -/

/-- Characters not percent-escaped by `encodeURI`. -/
def uriAllowed (c : Char) : Bool :=
  ('a' ≤ c && c ≤ 'z') || ('A' ≤ c && c ≤ 'Z') || ('0' ≤ c && c ≤ '9') ||
  c = '-' || c = '_' || c = '.' || c = '!' || c = '~' || c = '*' || c = '\'' ||
  c = '(' || c = ')' || c = ';' || c = '/' || c = '?' || c = ':' || c = '@' ||
  c = '&' || c = '=' || c = '+' || c = '$' || c = ',' || c = '#'

/-- `encodeURI(text).replace(/%../g, "*").length`: kept characters count 1,
and each percent-escape (one per UTF-8 byte) collapses to one `*`. -/
def encodeURISize (s : Str) : Nat :=
  (s.map (fun c => if uriAllowed c then 1 else c.utf8Size)).sum

structure MinificationLog where
  originalText : Str
  originalSize : Nat
  originalDataURL : Str
  minifiedText : Str
  minifiedSize : Nat
  minifiedDataURL : Str

/-- The instance state: `this.minificationLogs` and `this.logEnabled`. -/
structure MinifierState where
  minificationLogs : List MinificationLog
  logEnabled : Bool

/-- `clearLog() { this.minificationLogs = []; }` -/
def clearLog (st : MinifierState) : MinifierState := { st with minificationLogs := [] }

/-- `minifyJsFile` (lines 111–129) on its non-throwing path, as a state
transformer.  `mkURL` abstracts `toDataURL` (a browser handle generator
whose output the logic never inspects).  After building the record the
source runs `this.minificationLogs.push(log); !this.logEnabled && this.clearLog();`. -/
def minifyJsFile (mkURL : Str → Str) (st : MinifierState) (text : Str) :
    MinifierState × Str :=
  let minifiedJsCode := minifyJsCode text false
  let log : MinificationLog :=
    { originalText := text
      originalSize := encodeURISize text
      originalDataURL := mkURL text
      minifiedText := minifiedJsCode
      minifiedSize := encodeURISize minifiedJsCode
      minifiedDataURL := mkURL minifiedJsCode }
  let st1 := { st with minificationLogs := st.minificationLogs ++ [log] }
  let st2 := if !st.logEnabled then clearLog st1 else st1
  (st2, minifiedJsCode)

/-- `minifyJsInHtml` (lines 140–177) on its non-throwing path, as a state
transformer over the same log state. -/
def minifyJsInHtml (mkURL : Str → Str) (st : MinifierState) (text : Str) :
    MinifierState × Str :=
  let htmlWithEmbeddedJsCode := minifyJsInHtmlCore text
  let log : MinificationLog :=
    { originalText := text
      originalSize := encodeURISize text
      originalDataURL := mkURL text
      minifiedText := htmlWithEmbeddedJsCode
      minifiedSize := encodeURISize htmlWithEmbeddedJsCode
      minifiedDataURL := mkURL htmlWithEmbeddedJsCode }
  let st1 := { st with minificationLogs := st.minificationLogs ++ [log] }
  let st2 := if !st.logEnabled then clearLog st1 else st1
  (st2, htmlWithEmbeddedJsCode)

/-! ## The `try`/`catch` wrappers (source lines 126–128, 174–176, 287–289) -/

/-- A JavaScript exception value (whatever a stage might throw). -/
structure JsError where
  message : Str

/-- The `try { ...; return result; } catch(error) { console.error(error); }`
shape shared by `minifyJsCode`, `minifyJsFile` and `minifyJsInHtml`: when the
body throws, the error is written to the console and execution falls off the
end of the function, which therefore returns `undefined` (`none`).  No error
value of any type reaches the caller. -/
def catchWrapper (body : Except JsError Str) : Option Str :=
  match body with
  | Except.ok v => some v
  | Except.error _ => none

/-! ## Concrete inputs used by the counterexamples -/

/-- `x="a⟨TAB⟩b";` — a string literal whose content contains a tab. -/
def C1input : Str := str "x=\"a\tb\";"

/-- An HTML comment spanning several lines, with no preserve marker. -/
def C4input : Str := str "<!--\nsecret\n-->"

/-- An embedded fragment whose script tag carries an attribute. -/
def C6input : Str := str "<script type=\"t\">/*! keep */ x</script>"

/-- The second script region of the C5 document. -/
def C5tag2 : Str := str "<script>a ; b</script>"

/-- The first script region of the C5 document: a template literal containing
the text of `C5tag2` twice. -/
def C5tag1 : Str := str "<script>q= `" ++ C5tag2 ++ str "x" ++ C5tag2 ++ str "`;</script>"

/-- The C5 document: two script regions separated by plain markup. -/
def C5doc : Str := C5tag1 ++ str "hello" ++ C5tag2

/-! ## Predicates used in the theorem statements -/

/-- ASCII letter (stated on code points to ease arithmetic reasoning). -/
def isAsciiLetter (c : Char) : Bool :=
  (97 ≤ c.toNat && c.toNat ≤ 122) || (65 ≤ c.toNat && c.toNat ≤ 90)

/-- Every character of `s` is an ASCII letter. -/
@[reducible] def allLetters (s : Str) : Prop := ∀ c ∈ s, isAsciiLetter c = true

/-- `s` contains none of the three reserved control markers. -/
@[reducible] def ctrlFree (s : Str) : Prop := chSO ∉ s ∧ chSI ∉ s ∧ chDLE ∉ s

/-- A run of `n` space characters. -/
def spaces (n : Nat) : Str := List.replicate n ' '

/-!
# Theorems

One theorem (plus counterexample/witness theorems where required) per claim
of the frozen claim list, preceded by the helper lemmas they share.
-/

/-! ### Basic lemmas about the string primitives -/

theorem prefix_mem {p s : Str} (h : p.isPrefixOf s = true) {c : Char} (hc : c ∈ p) :
    c ∈ s :=
  (List.isPrefixOf_iff_prefix.mp h).subset hc

theorem occurs_mem {p s : Str} (h : occurs p s = true) {c : Char} (hc : c ∈ p) :
    c ∈ s := by
  induction s with
  | nil => exact absurd (prefix_mem h hc) (List.not_mem_nil c)
  | cons d rest ih =>
    unfold occurs at h
    rcases Bool.or_eq_true_iff.mp h with h1 | h2
    · exact prefix_mem h1 hc
    · exact List.mem_cons_of_mem d (ih h2)

theorem occurs_eq_false {p s : Str} {c : Char} (hc : c ∈ p) (hs : c ∉ s) :
    occurs p s = false := by
  cases h : occurs p s with
  | false => rfl
  | true => exact absurd (occurs_mem h hc) hs

theorem occurs_nil {p : Str} (h : p ≠ []) : occurs p [] = false := by
  cases p with
  | nil => exact absurd rfl h
  | cons c rest => rfl

theorem occurs_cons_eq_false {p : Str} {c : Char} {rest : Str}
    (h : occurs p (c :: rest) = false) :
    p.isPrefixOf (c :: rest) = false ∧ occurs p rest = false := by
  unfold occurs at h
  exact ⟨(Bool.or_eq_false_iff.mp h).1, (Bool.or_eq_false_iff.mp h).2⟩

/-- An occurrence right after a prefix that cannot contain the pattern's
head character. -/
theorem occurs_append_self {p b : Str} (a : Str) (hp : p ≠ []) :
    occurs p (a ++ p ++ b) = true := by
  induction a with
  | nil =>
    cases p with
    | nil => exact absurd rfl hp
    | cons x xs =>
      have hpre : (x :: xs).isPrefixOf (x :: (xs ++ b)) = true :=
        List.isPrefixOf_iff_prefix.mpr (by simp)
      simp only [List.nil_append, List.cons_append]
      unfold occurs
      simp [hpre]
  | cons d a' ih =>
    show occurs p (d :: (a' ++ p ++ b)) = true
    unfold occurs
    simp only [Bool.or_eq_true_iff]
    exact Or.inr ih

theorem replaceFirst_of_not_occurs {p r s : Str} (h : occurs p s = false) :
    replaceFirst p r s = s := by
  induction s with
  | nil =>
    unfold occurs at h
    unfold replaceFirst
    simp [h]
  | cons c rest ih =>
    obtain ⟨h1, h2⟩ := occurs_cons_eq_false h
    unfold replaceFirst
    simp [h1, ih h2]

theorem applyDollar_no_dollar {m : Str} : ∀ {r : Str}, '$' ∉ r → applyDollar m r = r
  | [], _ => rfl
  | [_], _ => rfl
  | c1 :: c2 :: rest, h => by
    have h1 : c1 ≠ '$' := fun e => h (e ▸ List.mem_cons_self _ _)
    have h2 : '$' ∉ c2 :: rest := fun hm => h (List.mem_cons_of_mem c1 hm)
    have e1 : (c1 = '$' && c2 = '$') = false := by simp [h1]
    have e2 : (c1 = '$' && c2 = '&') = false := by simp [h1]
    unfold applyDollar
    simp only [e1, e2, Bool.false_eq_true, if_false]
    exact congrArg (c1 :: ·) (applyDollar_no_dollar h2)

theorem applyDollar_escapeDollar (m t : Str) : applyDollar m (escapeDollar t) = t := by
  induction t with
  | nil => rfl
  | cons c rest ih =>
    by_cases hc : c = '$'
    · subst hc
      show applyDollar m ('$' :: '$' :: escapeDollar rest) = '$' :: rest
      unfold applyDollar
      simp [ih]
    · show applyDollar m ((if c = '$' then ['$', '$'] else [c]) ++ escapeDollar rest) = c :: rest
      rw [if_neg hc]
      cases hrest : escapeDollar rest with
      | nil =>
        cases rest with
        | nil => rfl
        | cons d rest' =>
          exfalso
          by_cases hd : d = '$' <;> simp [escapeDollar, hd] at hrest
      | cons e es =>
        show applyDollar m (c :: e :: es) = c :: rest
        unfold applyDollar
        have : (c = '$' && e = '$') = false := by simp [hc]
        have h2 : (c = '$' && e = '&') = false := by simp [hc]
        simp only [this, h2, Bool.false_eq_true, if_false]
        rw [← hrest, ih]

theorem replaceAllChar_not_mem {c r : Char} {s : Str} (h : c ∉ s) :
    replaceAllChar c r s = s := by
  unfold replaceAllChar
  induction s with
  | nil => rfl
  | cons d rest ih =>
    have hd : d ≠ c := fun e => h (e ▸ List.mem_cons_self d rest)
    have hrest : c ∉ rest := fun hm => h (List.mem_cons_of_mem d hm)
    simp only [List.map_cons, if_neg hd, List.cons.injEq, true_and]
    exact ih hrest

theorem replaceAllChar_not_target {c r : Char} (h : r ≠ c) (s : Str) :
    c ∉ replaceAllChar c r s := by
  intro hm
  unfold replaceAllChar at hm
  obtain ⟨x, _, hx⟩ := List.mem_map.mp hm
  by_cases hxc : x = c
  · rw [if_pos hxc] at hx; exact h hx
  · rw [if_neg hxc] at hx; exact hxc hx

theorem replaceAllChar_mem {c r : Char} {s : Str} {x : Char}
    (h : x ∈ replaceAllChar c r s) : x ∈ s ∨ x = r := by
  unfold replaceAllChar at h
  obtain ⟨y, hy, hx⟩ := List.mem_map.mp h
  by_cases hyc : y = c
  · rw [if_pos hyc] at hx; right; exact hx.symm
  · rw [if_neg hyc] at hx; left; exact hx ▸ hy

theorem findChar_not_mem {c : Char} {s : Str} (h : c ∉ s) : findChar c s = none := by
  induction s with
  | nil => rfl
  | cons d rest ih =>
    have hd : d ≠ c := fun e => h (e ▸ List.mem_cons_self d rest)
    unfold findChar
    simp [hd, ih (fun hm => h (List.mem_cons_of_mem d hm))]

theorem findChar_append {c : Char} {u : Str} (v : Str) (h : c ∉ u) :
    findChar c (u ++ c :: v) = some u.length := by
  induction u with
  | nil => unfold findChar; simp
  | cons d u' ih =>
    have hd : d ≠ c := fun e => h (e ▸ List.mem_cons_self d u')
    unfold findChar
    simp only [List.cons_append, if_neg hd,
      ih (fun hm => h (List.mem_cons_of_mem d hm)), Option.map_some']
    rfl

/-! ### Character-class lemmas -/

theorem isAsciiLetter_toNat {c : Char} (h : isAsciiLetter c = true) :
    (97 ≤ c.toNat ∧ c.toNat ≤ 122) ∨ (65 ≤ c.toNat ∧ c.toNat ≤ 90) := by
  unfold isAsciiLetter at h
  simp only [Bool.or_eq_true, Bool.and_eq_true, decide_eq_true_eq] at h
  exact h

theorem letter_ne {c d : Char} (h : isAsciiLetter c = true)
    (hd : isAsciiLetter d = false) : c ≠ d := by
  intro e
  rw [e, hd] at h
  cases h

theorem not_mem_of_allLetters {s : Str} (hs : allLetters s) {d : Char}
    (hd : isAsciiLetter d = false) : d ∉ s :=
  fun hm => letter_ne (hs d hm) hd rfl

theorem jsIsSpace_toNat {c : Char} (h : jsIsSpace c = true) :
    c.toNat < 65 ∨ 122 < c.toNat := by
  unfold jsIsSpace at h
  simp only [Bool.or_eq_true, Bool.and_eq_true, decide_eq_true_eq, or_assoc] at h
  rcases h with h|h|h|h|h|h|h|h|⟨h1,h2⟩|h|h|h|h|h|h
  all_goals first
    | (subst h; decide)
    | omega

theorem letter_not_jsSpace {c : Char} (h : isAsciiLetter c = true) :
    jsIsSpace c = false := by
  cases hs : jsIsSpace c with
  | false => rfl
  | true =>
    obtain h1 | h1 := isAsciiLetter_toNat h <;>
      obtain h2 | h2 := jsIsSpace_toNat hs <;> omega

theorem isLineTerm_toNat {c : Char} (h : isLineTerm c = true) :
    c.toNat < 65 ∨ 122 < c.toNat := by
  unfold isLineTerm at h
  simp only [Bool.or_eq_true, decide_eq_true_eq, or_assoc] at h
  rcases h with h|h|h|h
  all_goals subst h; decide

theorem letter_not_lineTerm {c : Char} (h : isAsciiLetter c = true) :
    isLineTerm c = false := by
  cases hs : isLineTerm c with
  | false => rfl
  | true =>
    obtain h1 | h1 := isAsciiLetter_toNat h <;>
      obtain h2 | h2 := isLineTerm_toNat hs <;> omega

theorem singleSymbol_toNat {c : Char} (h : singleSymbol c = true) :
    c.toNat < 65 ∨ (90 < c.toNat ∧ c.toNat < 97) ∨ 122 < c.toNat := by
  unfold singleSymbol at h
  simp only [Bool.or_eq_true, decide_eq_true_eq, or_assoc] at h
  rcases h with h|h|h|h|h|h|h|h|h|h|h|h
  all_goals subst h; decide

theorem letter_not_singleSymbol {c : Char} (h : isAsciiLetter c = true) :
    singleSymbol c = false := by
  cases hs : singleSymbol c with
  | false => rfl
  | true =>
    obtain h1 | h1 := isAsciiLetter_toNat h <;>
      rcases singleSymbol_toNat hs with h2 | ⟨h2, h3⟩ | h2 <;> omega

/-! ### Identity lemmas: each scanner leaves a text alone when its trigger
pattern cannot occur -/

theorem removeHTMLCommentAux_id :
    ∀ (fuel : Nat) (s : Str), occurs (str "<!--") s = false →
      removeHTMLCommentAux fuel s = s
  | 0, _, _ => rfl
  | _ + 1, [], _ => rfl
  | fuel + 1, c :: rest, h => by
    obtain ⟨h1, h2⟩ := occurs_cons_eq_false h
    unfold removeHTMLCommentAux
    simp [h1, removeHTMLCommentAux_id fuel rest h2]

theorem removeHTMLComment_id {s : Str} (h : occurs (str "<!--") s = false) :
    removeHTMLComment s = s :=
  removeHTMLCommentAux_id s.length s h

theorem removeSLCommentAux_id :
    ∀ (fuel : Nat) (prev : Option Char) (s : Str), occurs (str "//") s = false →
      removeSLCommentAux fuel prev s = s
  | 0, _, _, _ => rfl
  | _ + 1, _, [], _ => rfl
  | fuel + 1, prev, c :: rest, h => by
    obtain ⟨h1, h2⟩ := occurs_cons_eq_false h
    unfold removeSLCommentAux
    simp [h1, removeSLCommentAux_id fuel (some c) rest h2]

theorem removeSLComment_id {s : Str} (h : occurs (str "//") s = false) :
    removeSLComment s = s :=
  removeSLCommentAux_id s.length none s h

theorem tabCrlfToSpace_id :
    ∀ (s : Str), '\t' ∉ s → '\r' ∉ s → '\n' ∉ s → tabCrlfToSpace s = s
  | [], _, _, _ => rfl
  | c :: rest, h1, h2, h3 => by
    have hc1 : c ≠ '\t' := fun e => h1 (e ▸ List.mem_cons_self c rest)
    have hc2 : c ≠ '\r' := fun e => h2 (e ▸ List.mem_cons_self c rest)
    have hc3 : c ≠ '\n' := fun e => h3 (e ▸ List.mem_cons_self c rest)
    have ih := tabCrlfToSpace_id rest
      (fun hm => h1 (List.mem_cons_of_mem c hm))
      (fun hm => h2 (List.mem_cons_of_mem c hm))
      (fun hm => h3 (List.mem_cons_of_mem c hm))
    rw [tabCrlfToSpace.eq_def]
    split
    · next heq => exact absurd heq (List.cons_ne_nil c rest)
    · next heq => exact absurd (List.cons.inj heq).1 hc2
    · next heq =>
      obtain ⟨e1, e2⟩ := List.cons.inj heq
      rw [← e1, ← e2]
      simp [hc1, hc3, ih]

theorem removeMLCommentAux_id :
    ∀ (fuel : Nat) (s : Str), occurs (str "/*") s = false →
      removeMLCommentAux fuel s = s
  | 0, _, _ => rfl
  | _ + 1, [], _ => rfl
  | fuel + 1, c :: rest, h => by
    obtain ⟨h1, h2⟩ := occurs_cons_eq_false h
    unfold removeMLCommentAux
    simp [h1, removeMLCommentAux_id fuel rest h2]

theorem removeMLComment_id {s : Str} (h : occurs (str "/*") s = false) :
    removeMLComment s = s :=
  removeMLCommentAux_id s.length s h

theorem escapeCharInRegexAux_id (q m : Char) :
    ∀ (fuel : Nat) (s : Str), q ∉ s → escapeCharInRegexAux q m fuel s = s
  | 0, _, _ => rfl
  | _ + 1, [], _ => rfl
  | fuel + 1, c :: rest, h => by
    have hrest : q ∉ rest := fun hm => h (List.mem_cons_of_mem c hm)
    have ih := escapeCharInRegexAux_id q m fuel rest hrest
    unfold escapeCharInRegexAux
    by_cases hc : c = '/'
    · have hstep : regexEscStep q rest = none := by
        unfold regexEscStep
        cases hf : findChar '/' rest with
        | none => rfl
        | some f =>
          have : q ∉ rest.take f := fun hm => hrest (List.take_subset f rest hm)
          simp [findChar_not_mem this]
      simp [hc, hstep, ih]
    · simp [hc, ih]

theorem escapeQuotInRegexPattern_id {s : Str} (h : '"' ∉ s) :
    escapeQuotInRegexPattern s = s :=
  escapeCharInRegexAux_id '"' chSO s.length s h

theorem escapeAposInRegexPattern_id {s : Str} (h : '\'' ∉ s) :
    escapeAposInRegexPattern s = s :=
  escapeCharInRegexAux_id '\'' chSI s.length s h

theorem escapeBacktickInRegexPattern_id {s : Str} (h : '`' ∉ s) :
    escapeBacktickInRegexPattern s = s :=
  escapeCharInRegexAux_id '`' chDLE s.length s h

theorem matchTemplatesAux_nil :
    ∀ (fuel : Nat) (s : Str), '`' ∉ s → matchTemplatesAux fuel s = []
  | 0, _, _ => rfl
  | _ + 1, [], _ => rfl
  | fuel + 1, c :: rest, h => by
    have hc : c ≠ '`' := fun e => h (e ▸ List.mem_cons_self c rest)
    unfold matchTemplatesAux
    simp [hc, matchTemplatesAux_nil fuel rest (fun hm => h (List.mem_cons_of_mem c hm))]

theorem matchTemplates_nil {s : Str} (h : '`' ∉ s) : matchTemplates s = [] :=
  matchTemplatesAux_nil s.length s h

theorem removeTemplatesAux_id :
    ∀ (fuel : Nat) (s : Str), '`' ∉ s → removeTemplatesAux fuel s = s
  | 0, _, _ => rfl
  | _ + 1, [], _ => rfl
  | fuel + 1, c :: rest, h => by
    have hc : c ≠ '`' := fun e => h (e ▸ List.mem_cons_self c rest)
    unfold removeTemplatesAux
    simp [hc, removeTemplatesAux_id fuel rest (fun hm => h (List.mem_cons_of_mem c hm))]

theorem removeTemplates_id {s : Str} (h : '`' ∉ s) : removeTemplates s = s :=
  removeTemplatesAux_id s.length s h

theorem matchQuotedAux_nil :
    ∀ (fuel : Nat) (s : Str), '"' ∉ s → '\'' ∉ s → matchQuotedAux fuel s = []
  | 0, _, _, _ => rfl
  | _ + 1, [], _, _ => rfl
  | fuel + 1, c :: rest, h1, h2 => by
    have hc1 : c ≠ '"' := fun e => h1 (e ▸ List.mem_cons_self c rest)
    have hc2 : c ≠ '\'' := fun e => h2 (e ▸ List.mem_cons_self c rest)
    unfold matchQuotedAux
    simp [hc1, hc2, matchQuotedAux_nil fuel rest
      (fun hm => h1 (List.mem_cons_of_mem c hm))
      (fun hm => h2 (List.mem_cons_of_mem c hm))]

theorem matchQuoted_nil {s : Str} (h1 : '"' ∉ s) (h2 : '\'' ∉ s) :
    matchQuoted s = [] :=
  matchQuotedAux_nil s.length s h1 h2

theorem preserveCommentAux_nil :
    ∀ (fuel : Nat) (s : Str), occurs (str "/*!") s = false →
      preserveCommentAux fuel s = []
  | 0, _, _ => rfl
  | _ + 1, [], _ => rfl
  | fuel + 1, c :: rest, h => by
    obtain ⟨h1, h2⟩ := occurs_cons_eq_false h
    unfold preserveCommentAux
    simp [h1, preserveCommentAux_nil fuel rest h2]

theorem preserveComment_none {s : Str} (h : occurs (str "/*!") s = false) :
    preserveComment s = none := by
  unfold preserveComment
  rw [preserveCommentAux_nil s.length s h]

theorem symbolAt_eq {s sym r : Str} (h : symbolAt s = some (sym, r)) :
    s = sym ++ r := by
  cases s with
  | nil => simp [symbolAt] at h
  | cons c rest =>
    simp only [symbolAt] at h
    split at h
    · have h' := Option.some.inj h
      simp only [Prod.mk.injEq] at h'
      obtain ⟨e1, e2⟩ := h'
      rw [← e1, ← e2]; rfl
    · split at h
      · next h2 =>
        have h' := Option.some.inj h
        simp only [Prod.mk.injEq] at h'
        obtain ⟨e1, e2⟩ := h'
        rw [← e1, ← e2]
        exact (List.prefix_iff_eq_append.mp (List.isPrefixOf_iff_prefix.mp h2)).symm
      · split at h
        · next h3 =>
          have h' := Option.some.inj h
          simp only [Prod.mk.injEq] at h'
          obtain ⟨e1, e2⟩ := h'
          rw [← e1, ← e2]
          exact (List.prefix_iff_eq_append.mp (List.isPrefixOf_iff_prefix.mp h3)).symm
        · cases h

/-- Definitional unfolding of one `removeSpaceAux` step. -/
theorem removeSpaceAux_cons (fuel : Nat) (c : Char) (rest : Str) :
    removeSpaceAux (fuel + 1) (c :: rest) =
      match symbolAt (c :: rest) with
      | some (sym, r) =>
        if r.head?.any jsIsSpace then sym ++ removeSpaceAux fuel (r.dropWhile jsIsSpace)
        else c :: removeSpaceAux fuel rest
      | none =>
        if jsIsSpace c then
          match symbolAt ((c :: rest).dropWhile jsIsSpace) with
          | some (sym, r') => sym ++ removeSpaceAux fuel r'
          | none => ' ' :: removeSpaceAux fuel ((c :: rest).dropWhile jsIsSpace)
        else c :: removeSpaceAux fuel rest := rfl

theorem removeSpaceAux_id :
    ∀ (fuel : Nat) (s : Str), (∀ c ∈ s, jsIsSpace c = false) →
      removeSpaceAux fuel s = s
  | 0, _, _ => rfl
  | _ + 1, [], _ => rfl
  | fuel + 1, c :: rest, h => by
    have hc : jsIsSpace c = false := h c (List.mem_cons_self c rest)
    have ih := removeSpaceAux_id fuel rest (fun d hd => h d (List.mem_cons_of_mem c hd))
    rw [removeSpaceAux_cons]
    cases hsym : symbolAt (c :: rest) with
    | some pr =>
      obtain ⟨sym, r⟩ := pr
      have hr : r.head?.any jsIsSpace = false := by
        cases hr' : r.head? with
        | none => rfl
        | some d =>
          have hd : d ∈ c :: rest := by
            have hsub : r ⊆ c :: rest := by
              have := symbolAt_eq hsym
              intro x hx
              rw [this]
              exact List.mem_append_right sym hx
            exact hsub (by cases r with
              | nil => cases hr'
              | cons e r' => cases hr'; exact List.mem_cons_self _ _)
          simp [hr', h d hd]
      simp [hr, ih]
    | none =>
      simp [hc, ih]

theorem removeSpace_id {s : Str} (h : ∀ c ∈ s, jsIsSpace c = false) :
    removeSpace s = s :=
  removeSpaceAux_id s.length s h

theorem restoreBacktickInRegexPattern_id {s : Str} (h : chDLE ∉ s) :
    restoreBacktickInRegexPattern s = s := replaceAllChar_not_mem h

theorem restoreAposInRegexPattern_id {s : Str} (h : chSI ∉ s) :
    restoreAposInRegexPattern s = s := replaceAllChar_not_mem h

theorem restoreQuotInRegexPattern_id {s : Str} (h : chSO ∉ s) :
    restoreQuotInRegexPattern s = s := replaceAllChar_not_mem h

theorem parseScriptOpen_no_lt {c : Char} {t : Str} (h1 : jsIsSpace c = false)
    (h2 : c ≠ '<') : parseScriptOpen (c :: t) = none := by
  unfold parseScriptOpen spanWs
  rw [List.dropWhile_cons]
  simp only [h1, Bool.false_eq_true, if_false]
  split
  · next heq => exact absurd ((List.cons.inj heq).1) h2
  · rfl

theorem stripLeadingScriptTag_no_lt {c : Char} {t : Str} (h1 : jsIsSpace c = false)
    (h2 : c ≠ '<') : stripLeadingScriptTag (c :: t) = c :: t := by
  unfold stripLeadingScriptTag
  rw [parseScriptOpen_no_lt h1 h2]

theorem stripLeadingScriptTag_nil : stripLeadingScriptTag [] = [] := rfl

theorem escapeDollar_id {s : Str} (h : '$' ∉ s) : escapeDollar s = s := by
  induction s with
  | nil => rfl
  | cons c rest ih =>
    have hc : c ≠ '$' := fun e => h (e ▸ List.mem_cons_self c rest)
    show (if c = '$' then ['$', '$'] else [c]) ++ escapeDollar rest = c :: rest
    rw [if_neg hc, ih (fun hm => h (List.mem_cons_of_mem c hm))]
    rfl

/-! ### Locating a pattern after a clean prefix -/

theorem findSub_append {ph : Char} {pt u : Str} (t : Str) (hu : ph ∉ u) :
    findSub (ph :: pt) (u ++ (ph :: pt) ++ t) = some u.length := by
  induction u with
  | nil =>
    have hpre : (ph :: pt).isPrefixOf (ph :: (pt ++ t)) = true :=
      List.isPrefixOf_iff_prefix.mpr (by simp)
    simp only [List.nil_append, List.cons_append]
    unfold findSub
    simp [hpre]
  | cons x u' ih =>
    have hx : ph ≠ x := fun e => hu (e ▸ List.mem_cons_self x u')
    have hpre : (ph :: pt).isPrefixOf (x :: (u' ++ (ph :: pt) ++ t)) = false := by
      simp [List.isPrefixOf, hx]
    have ih' := ih (fun hm => hu (List.mem_cons_of_mem x hm))
    show findSub (ph :: pt) (x :: (u' ++ (ph :: pt) ++ t)) = some (u'.length + 1)
    unfold findSub
    rw [hpre]
    simp only [List.append_assoc, List.cons_append] at ih' ⊢
    simp [ih']

theorem findNoNL_append {ph : Char} {pt u : Str} (t : Str) (hu : ph ∉ u)
    (hnl : ∀ c ∈ u, isLineTerm c = false) :
    findNoNL (ph :: pt) (u ++ (ph :: pt) ++ t) = some u.length := by
  induction u with
  | nil =>
    have hpre : (ph :: pt).isPrefixOf (ph :: (pt ++ t)) = true :=
      List.isPrefixOf_iff_prefix.mpr (by simp)
    simp only [List.nil_append, List.cons_append]
    unfold findNoNL
    simp [hpre]
  | cons x u' ih =>
    have hx : ph ≠ x := fun e => hu (e ▸ List.mem_cons_self x u')
    have hpre : (ph :: pt).isPrefixOf (x :: (u' ++ (ph :: pt) ++ t)) = false := by
      simp [List.isPrefixOf, hx]
    have hxnl : isLineTerm x = false := hnl x (List.mem_cons_self x u')
    have ih' := ih (fun hm => hu (List.mem_cons_of_mem x hm))
      (fun c hc => hnl c (List.mem_cons_of_mem x hc))
    show findNoNL (ph :: pt) (x :: (u' ++ (ph :: pt) ++ t)) = some (u'.length + 1)
    unfold findNoNL
    rw [hpre]
    simp only [List.append_assoc, List.cons_append] at ih' ⊢
    simp [hxnl, ih']

theorem replaceFirst_append {ph : Char} {pt r a : Str} (b : Str) (ha : ph ∉ a) :
    replaceFirst (ph :: pt) r (a ++ (ph :: pt) ++ b) =
      a ++ applyDollar (ph :: pt) r ++ b := by
  induction a with
  | nil =>
    have hpre : (ph :: pt).isPrefixOf (ph :: (pt ++ b)) = true :=
      List.isPrefixOf_iff_prefix.mpr (by simp)
    simp only [List.nil_append, List.cons_append]
    unfold replaceFirst
    rw [if_pos hpre]
    have hdrop : (ph :: (pt ++ b)).drop (ph :: pt).length = b := by simp
    rw [hdrop]
  | cons x a' ih =>
    have hx : ph ≠ x := fun e => ha (e ▸ List.mem_cons_self x a')
    have hpre : (ph :: pt).isPrefixOf (x :: (a' ++ (ph :: pt) ++ b)) = false := by
      simp [List.isPrefixOf, hx]
    have ih' := ih (fun hm => ha (List.mem_cons_of_mem x hm))
    show replaceFirst (ph :: pt) r (x :: (a' ++ (ph :: pt) ++ b)) =
      x :: (a' ++ applyDollar (ph :: pt) r ++ b)
    unfold replaceFirst
    rw [hpre]
    simp only [List.append_assoc, List.cons_append] at ih' ⊢
    simp [ih']

/-! ### The quoted-literal scanner on a single double-quoted literal -/

/-- Definitional unfolding of one `matchQuotedAux` step. -/
theorem matchQuotedAux_cons (fuel : Nat) (c : Char) (rest : Str) :
    matchQuotedAux (fuel + 1) (c :: rest) =
      if c = '"' then
        match findChar '"' rest with
        | some i => ('"' :: rest.take i ++ ['"']) :: matchQuotedAux fuel (rest.drop (i + 1))
        | none => matchQuotedAux fuel rest
      else if c = '\'' then
        match findChar '\'' rest with
        | some i => ('\'' :: rest.take i ++ ['\'']) :: matchQuotedAux fuel (rest.drop (i + 1))
        | none => matchQuotedAux fuel rest
      else matchQuotedAux fuel rest := rfl

theorem matchQuotedAux_shape :
    ∀ (fuel : Nat) (a s b : Str), a.length < fuel →
      (∀ c ∈ a, c ≠ '"' ∧ c ≠ '\'') → '"' ∉ s →
      '"' ∉ b → '\'' ∉ b →
      matchQuotedAux fuel (a ++ '"' :: s ++ '"' :: b) = ['"' :: s ++ ['"']]
  | 0, a, _, _, hf, _, _, _, _ => absurd hf (by omega)
  | fuel + 1, [], s, b, _, _, hs, hb1, hb2 => by
    have hfind : findChar '"' (s ++ '"' :: b) = some s.length := findChar_append b hs
    have htake : (s ++ '"' :: b).take s.length = s := List.take_left s ('"' :: b)
    have hdrop : (s ++ '"' :: b).drop (s.length + 1) = b := by
      have he : s ++ '"' :: b = (s ++ ['"']) ++ b := by simp
      rw [he]
      have hl : (s ++ ['"']).length = s.length + 1 := by simp
      rw [← hl]
      exact List.drop_left (s ++ ['"']) b
    show matchQuotedAux (fuel + 1) ('"' :: (s ++ '"' :: b)) = ['"' :: s ++ ['"']]
    rw [matchQuotedAux_cons, if_pos rfl, hfind]
    show ('"' :: (s ++ '"' :: b).take s.length ++ ['"']) ::
      matchQuotedAux fuel ((s ++ '"' :: b).drop (s.length + 1)) = ['"' :: s ++ ['"']]
    rw [htake, hdrop, matchQuotedAux_nil fuel b hb1 hb2]
  | fuel + 1, x :: a', s, b, hf, ha, hs, hb1, hb2 => by
    obtain ⟨hx1, hx2⟩ := ha x (List.mem_cons_self x a')
    show matchQuotedAux (fuel + 1) (x :: (a' ++ '"' :: s ++ '"' :: b)) = ['"' :: s ++ ['"']]
    rw [matchQuotedAux_cons, if_neg hx1, if_neg hx2]
    exact matchQuotedAux_shape fuel a' s b (by simp at hf ⊢; omega)
      (fun c hc => ha c (List.mem_cons_of_mem x hc)) hs hb1 hb2

theorem matchQuoted_shape (a s b : Str)
    (ha : ∀ c ∈ a, c ≠ '"' ∧ c ≠ '\'') (hs : '"' ∉ s)
    (hb1 : '"' ∉ b) (hb2 : '\'' ∉ b) :
    matchQuoted (a ++ '"' :: s ++ '"' :: b) = ['"' :: s ++ ['"']] :=
  matchQuotedAux_shape _ a s b (by simp) ha hs hb1 hb2

/-! ### Pair-occurrence decomposition over an append -/

theorem occurs_cons_iff {p : Str} {c : Char} {rest : Str} :
    occurs p (c :: rest) = true ↔
      p.isPrefixOf (c :: rest) = true ∨ occurs p rest = true := by
  show (p.isPrefixOf (c :: rest) || occurs p rest) = true ↔ _
  simp [Bool.or_eq_true_iff]

theorem pair_isPrefixOf_iff {x y c : Char} {w : Str} :
    [x, y].isPrefixOf (c :: w) = true ↔ c = x ∧ w.head? = some y := by
  cases w with
  | nil =>
    show ((x == c) && ([y].isPrefixOf [])) = true ↔ _
    simp [List.isPrefixOf]
  | cons d w' =>
    show ((x == c) && ((y == d) && ([].isPrefixOf w'))) = true ↔ _
    simp only [List.isPrefixOf, Bool.and_true, Bool.and_eq_true, beq_iff_eq,
      List.head?_cons, Option.some.injEq]
    exact ⟨fun ⟨h1, h2⟩ => ⟨h1.symm, h2.symm⟩, fun ⟨h1, h2⟩ => ⟨h1.symm, h2.symm⟩⟩

theorem occurs_pair_append {x y : Char} (u v : Str) :
    occurs [x, y] (u ++ v) = true ↔
      occurs [x, y] u = true ∨ occurs [x, y] v = true ∨
        (u.getLast? = some x ∧ v.head? = some y) := by
  induction u with
  | nil => simp [occurs_nil (by simp : ([x, y] : Str) ≠ [])]
  | cons c u' ih =>
    show occurs [x, y] (c :: (u' ++ v)) = true ↔ _
    rw [occurs_cons_iff, pair_isPrefixOf_iff, ih]
    cases u' with
    | nil =>
      have hc1 : occurs [x, y] ([c] : Str) = false := by
        simp [occurs, List.isPrefixOf]
      have hc2 : ([c] : Str).getLast? = some c := rfl
      simp only [List.nil_append, hc1, hc2,
        occurs_nil (by simp : ([x, y] : Str) ≠ []), List.getLast?_nil,
        Option.some.injEq, Bool.false_eq_true, false_or, false_and, or_false]
      tauto
    | cons e u'' =>
      rw [@occurs_cons_iff [x, y] c (e :: u''), pair_isPrefixOf_iff]
      simp only [List.cons_append, List.head?_cons, Option.some.injEq,
        List.getLast?_cons_cons]
      tauto

theorem occurs_pair_append_false {x y : Char} {u v : Str}
    (hu : occurs [x, y] u = false) (hv : occurs [x, y] v = false)
    (hj : ¬(u.getLast? = some x ∧ v.head? = some y)) :
    occurs [x, y] (u ++ v) = false := by
  cases h : occurs [x, y] (u ++ v) with
  | false => rfl
  | true =>
    rcases (occurs_pair_append u v).mp h with h' | h' | h'
    · rw [hu] at h'; cases h'
    · rw [hv] at h'; cases h'
    · exact absurd h' hj

/-! ### Step lemmas for the whitespace collapser -/

theorem removeSpaceAux_nil : ∀ (fuel : Nat), removeSpaceAux fuel [] = [] := by
  intro fuel; cases fuel <;> rfl

/-- Definitional unfolding of `symbolAt` at a cons cell. -/
theorem symbolAt_cons (c : Char) (rest : Str) :
    symbolAt (c :: rest) =
      if singleSymbol c then some ([c], rest)
      else if (str "u003C").isPrefixOf (c :: rest) then
        some (str "u003C", (c :: rest).drop 5)
      else if (str "u003E").isPrefixOf (c :: rest) then
        some (str "u003E", (c :: rest).drop 5)
      else none := rfl

theorem symbolAt_none_of {c : Char} {t : Str} (h1 : singleSymbol c = false)
    (h2 : t.head? ≠ some '0') : symbolAt (c :: t) = none := by
  have hpre : ∀ (w : Str), (('u' :: '0' :: w).isPrefixOf (c :: t)) = false := by
    intro w
    cases t with
    | nil => simp [List.isPrefixOf]
    | cons d t' =>
      have hd : ('0' : Char) ≠ d := fun e => h2 (by rw [← e]; rfl)
      have hd' : ('0' == d) = false := by simp [hd]
      show (('u' == c) && (('0' == d) && (w.isPrefixOf t'))) = false
      simp [hd']
  rw [symbolAt_cons]
  rw [if_neg (by simp [h1])]
  rw [show (str "u003C") = 'u' :: '0' :: str "03C" from by decide, hpre (str "03C")]
  rw [show (str "u003E") = 'u' :: '0' :: str "03E" from by decide, hpre (str "03E")]
  simp

theorem symbolAt_single {c : Char} (r : Str) (h : singleSymbol c = true) :
    symbolAt (c :: r) = some ([c], r) := by
  rw [symbolAt_cons]
  rw [if_pos (by simp [h])]

theorem head_spaces_ne_zero (k : Nat) {t : Str} (ht : t.head? ≠ some '0') :
    (spaces k ++ t).head? ≠ some '0' := by
  cases k with
  | zero => exact ht
  | succ k' =>
    show ((' ' :: (spaces k' ++ t)).head? ≠ some '0')
    simp

theorem dropWhile_spaces (k : Nat) {t : Str} (ht : t.head?.any jsIsSpace = false) :
    (spaces k ++ t).dropWhile jsIsSpace = t := by
  induction k with
  | zero =>
    cases t with
    | nil => rfl
    | cons d t' =>
      simp only [List.head?_cons, Option.any_some] at ht
      show (d :: t').dropWhile jsIsSpace = d :: t'
      rw [List.dropWhile_cons]
      simp [ht]
  | succ k' ih =>
    show (' ' :: (spaces k' ++ t)).dropWhile jsIsSpace = t
    rw [List.dropWhile_cons]
    simp only [show jsIsSpace ' ' = true from by decide, if_true]
    exact ih

theorem rsStep_plain {fuel : Nat} {c : Char} {t : Str}
    (h1 : singleSymbol c = false) (h0 : t.head? ≠ some '0')
    (hw : jsIsSpace c = false) :
    removeSpaceAux (fuel + 1) (c :: t) = c :: removeSpaceAux fuel t := by
  rw [removeSpaceAux_cons, symbolAt_none_of h1 h0]
  simp [hw]

theorem rsStep_sym_nows {fuel : Nat} {c : Char} {t : Str}
    (h : singleSymbol c = true) (hw : t.head?.any jsIsSpace = false) :
    removeSpaceAux (fuel + 1) (c :: t) = c :: removeSpaceAux fuel t := by
  rw [removeSpaceAux_cons, symbolAt_single t h]
  simp [hw]

theorem rsStep_sym_ws {fuel : Nat} {c : Char} {t : Str}
    (h : singleSymbol c = true) (hw : t.head?.any jsIsSpace = true) :
    removeSpaceAux (fuel + 1) (c :: t) =
      c :: removeSpaceAux fuel (t.dropWhile jsIsSpace) := by
  rw [removeSpaceAux_cons, symbolAt_single t h]
  simp [hw]

theorem head_any_ws_false {d : Char} (r : Str) (hd : jsIsSpace d = false) :
    ((d :: r).head?.any jsIsSpace) = false := by simp [hd]

theorem head_ne_zero {d : Char} (r : Str) (hd : d ≠ '0') :
    (d :: r).head? ≠ some '0' := by simp [hd]

theorem rsStep_ws_sym {fuel : Nat} {c d : Char} {t r : Str}
    (hw : jsIsSpace c = true) (hcs : singleSymbol c = false)
    (h0 : t.head? ≠ some '0')
    (hd : (c :: t).dropWhile jsIsSpace = d :: r) (hsd : singleSymbol d = true) :
    removeSpaceAux (fuel + 1) (c :: t) = d :: removeSpaceAux fuel r := by
  rw [removeSpaceAux_cons, symbolAt_none_of hcs h0]
  simp only [hw, if_true]
  rw [hd, symbolAt_single r hsd]
  rfl

theorem rsStep_ws_plain {fuel : Nat} {c : Char} {t : Str}
    (hw : jsIsSpace c = true) (hcs : singleSymbol c = false)
    (h0 : t.head? ≠ some '0')
    (hnone : symbolAt ((c :: t).dropWhile jsIsSpace) = none) :
    removeSpaceAux (fuel + 1) (c :: t) =
      ' ' :: removeSpaceAux fuel ((c :: t).dropWhile jsIsSpace) := by
  rw [removeSpaceAux_cons, symbolAt_none_of hcs h0]
  simp only [hw, if_true]
  rw [hnone]

/-- Claim C1, counterexample.  The claim states that the full content of any
string literal appears character-for-character in the output of
`minifyJsCode`.  For the input `x="a⟨TAB⟩b";` the literal content `a⟨TAB⟩b`
does not appear in the output: `tabCrlfToSpace` rewrites the tab to a space
before the literal protector runs, so the protected (and restored) literal
is already corrupted. -/
theorem C1_counterexample :
    occurs (str "\"a\tb\"") C1input = true ∧
    occurs (str "a\tb") (minifyJsCode C1input false) = false := by decide

/-- Claim C1, amended: the literal round-trip holds once every character the
earlier pipeline stages can consume is kept out of the literal: for a
double-quoted literal whose content consists of ASCII letters (no tabs or
newlines for `tabCrlfToSpace`, no `//` or comment delimiters for the comment
strippers, no `$`, quotes, backticks or placeholder text for the
protection/restoration machinery), `minifyJsCode` reproduces the input
exactly, so the literal's content appears verbatim in the output. -/
theorem C1_amended_literal_roundtrip (s : Str) (hs : allLetters s) :
    minifyJsCode (str "x=\"" ++ s ++ str "\";") false = str "x=\"" ++ s ++ str "\";" ∧
    occurs ('"' :: s ++ ['"'])
      (minifyJsCode (str "x=\"" ++ s ++ str "\";") false) = true := by
  set inp := str "x=\"" ++ s ++ str "\";" with hinp
  have hshape : inp = str "x=" ++ ('"' :: (s ++ ['"'])) ++ str ";" := by
    rw [hinp, show str "x=\"" = str "x=" ++ ['"'] from by decide,
      show str "\";" = ['"'] ++ str ";" from by decide]
    simp
  have hshape2 : inp = str "x=" ++ ('"' :: s ++ '"' :: str ";") := by
    rw [hshape]; simp
  have hnm : ∀ d : Char, isAsciiLetter d = false → d ∉ str "x=\"" →
      d ∉ str "\";" → d ∉ inp := by
    intro d hd h1 h2 hm
    rw [hinp] at hm
    rcases List.mem_append.mp hm with h | h
    · rcases List.mem_append.mp h with h' | h'
      · exact h1 h'
      · exact absurd (hs d h') (by simp [hd])
    · exact h2 h
  have h1 : removeHTMLComment inp = inp :=
    removeHTMLComment_id (occurs_eq_false (by decide : '!' ∈ str "<!--")
      (hnm '!' (by decide) (by decide) (by decide)))
  have hslash : '/' ∉ inp := hnm '/' (by decide) (by decide) (by decide)
  have h2 : removeSLComment inp = inp :=
    removeSLComment_id (occurs_eq_false (by decide : '/' ∈ str "//") hslash)
  have h3 : tabCrlfToSpace inp = inp :=
    tabCrlfToSpace_id inp (hnm '\t' (by decide) (by decide) (by decide))
      (hnm '\r' (by decide) (by decide) (by decide))
      (hnm '\n' (by decide) (by decide) (by decide))
  have h4 : removeMLComment inp = inp :=
    removeMLComment_id (occurs_eq_false (by decide : '/' ∈ str "/*") hslash)
  have hbt : '`' ∉ inp := hnm '`' (by decide) (by decide) (by decide)
  have hsq : '\'' ∉ inp := hnm '\'' (by decide) (by decide) (by decide)
  have hquoted : matchQuoted inp = ['"' :: s ++ ['"']] := by
    rw [hshape2]
    exact matchQuoted_shape (str "x=") s (str ";") (by decide)
      (not_mem_of_allLetters hs (by decide))
      (by decide) (by decide)
  have hlits : escapeLiterals inp = [some ('"' :: s ++ ['"'])] := by
    unfold escapeLiterals
    rw [matchTemplates_nil hbt, removeTemplates_id hbt, hquoted]
    rfl
  have hset : setLiteralsToValiable inp [some ('"' :: s ++ ['"'])] =
      str "x=escapeString_____00000;" := by
    show replaceFirst ('"' :: s ++ ['"']) (placeholderStr 0) inp =
      str "x=escapeString_____00000;"
    rw [show ('"' :: s ++ ['"'] : Str) = '"' :: (s ++ ['"']) from by simp, hshape,
      replaceFirst_append _ (by decide : '"' ∉ str "x="),
      applyDollar_no_dollar (by decide)]
    decide
  have hget : getLiteralsFromValiable (str "x=escapeString_____00000;")
      [some ('"' :: s ++ ['"'])] = inp := by
    show replaceFirst (placeholderStr 0) (escapeDollar ('"' :: s ++ ['"']))
      (str "x=escapeString_____00000;") = inp
    rw [show str "x=escapeString_____00000;" =
        str "x=" ++ ('e' :: str "scapeString_____00000") ++ str ";" from by decide,
      show placeholderStr 0 = 'e' :: str "scapeString_____00000" from by decide,
      replaceFirst_append _ (by decide : 'e' ∉ str "x="),
      show ('e' :: str "scapeString_____00000" : Str) = placeholderStr 0 from by decide,
      applyDollar_escapeDollar]
    rw [hshape]
    simp
  have hid : minifyJsCode inp false = inp := by
    simp only [minifyJsCode]
    rw [h1, h2, h3, h4, hlits, hset,
      escapeQuotInRegexPattern_id (by decide),
      escapeAposInRegexPattern_id (by decide),
      escapeBacktickInRegexPattern_id (by decide),
      show removeSpace (str "x=escapeString_____00000;") =
        str "x=escapeString_____00000;" from by decide,
      hget,
      restoreBacktickInRegexPattern_id (hnm chDLE (by decide) (by decide) (by decide)),
      restoreAposInRegexPattern_id (hnm chSI (by decide) (by decide) (by decide)),
      restoreQuotInRegexPattern_id (hnm chSO (by decide) (by decide) (by decide)),
      preserveComment_none (occurs_eq_false (by decide : '/' ∈ str "/*!") hslash)]
    rw [show inp = 'x' :: (str "=\"" ++ s ++ str "\";") from by
        rw [hinp, show str "x=\"" = 'x' :: str "=\"" from by decide]; simp,
      stripLeadingScriptTag_no_lt (by decide) (by decide)]
    rfl
  refine ⟨hid, ?_⟩
  rw [hid, hshape]
  exact occurs_append_self (str "x=") (by simp)

/-- Witness for the amended C1 at a concrete literal content. -/
theorem C1_amended_witness :
    minifyJsCode (str "x=\"" ++ str "hello" ++ str "\";") false =
      str "x=\"" ++ str "hello" ++ str "\";" :=
  (C1_amended_literal_roundtrip (str "hello") (by decide)).1

/-- Claim C2, counterexample.  The claim states that no whitespace survives
immediately adjacent to a structural symbol.  On `a ; b` the run before `;`
is consumed together with the symbol by the `\s+(sym)` alternative, so the
scan resumes after the `;`; the following run is then a free-standing `\s+`
match and collapses to one space, which survives immediately after the
symbol: the output is `a; b`. -/
theorem C2_counterexample :
    removeSpace (str "a ; b") = str "a; b" ∧
    (removeSpace (str "a ; b"))[1]? = some ';' ∧
    (removeSpace (str "a ; b"))[2]? = some ' ' := by decide

/-- Claim C2, amended: a whitespace run immediately before a structural
symbol is always deleted (together with the symbol it forms one
`\s+(sym)` match); a run immediately after a symbol is deleted only when
the scan reaches the symbol directly (`(sym)\s+`, second conjunct), while a
run following a symbol that was itself consumed by a preceding
whitespace-symbol match collapses to one surviving space adjacent to the
symbol (first conjunct); a run adjacent to no symbol collapses to exactly
one space (third conjunct). -/
theorem C2_amended_adjacency (n m : Nat) (hn : 1 ≤ n) (hm : 1 ≤ m) :
    removeSpace (str "a" ++ spaces n ++ str ";" ++ spaces m ++ str "b") =
      str "a; b" ∧
    removeSpace (str "a;" ++ spaces m ++ str "b") = str "a;b" ∧
    removeSpace (str "a" ++ spaces n ++ str "b") = str "a b" := by
  obtain ⟨n', rfl⟩ : ∃ n', n = n' + 1 := ⟨n - 1, by omega⟩
  obtain ⟨m', rfl⟩ : ∃ m', m = m' + 1 := ⟨m - 1, by omega⟩
  have hsp : ∀ (k : Nat) (X : Str), spaces (k + 1) ++ X = ' ' :: (spaces k ++ X) :=
    fun k X => rfl
  have hbNone : symbolAt ['b'] = none := by decide
  refine ⟨?_, ?_, ?_⟩
  · -- `a⟨ws⟩;⟨ws⟩b` : run before `;` deleted, run after `;` becomes one space
    have key : ∀ f, removeSpaceAux (f + 4)
        ('a' :: (spaces (n' + 1) ++ (';' :: (spaces (m' + 1) ++ ['b'])))) =
        str "a; b" := by
      intro f
      rw [rsStep_plain (by decide) (head_spaces_ne_zero _ (head_ne_zero _ (by decide)))
        (by decide)]
      rw [hsp n' (';' :: (spaces (m' + 1) ++ ['b']))]
      rw [rsStep_ws_sym (d := ';') (r := spaces (m' + 1) ++ ['b'])
        (by decide) (by decide)
        (head_spaces_ne_zero n' (head_ne_zero _ (by decide)))
        (by
          rw [← hsp n' (';' :: (spaces (m' + 1) ++ ['b']))]
          exact dropWhile_spaces (n' + 1) (head_any_ws_false _ (by decide)))
        (by decide)]
      rw [hsp m' ['b']]
      have hdrop2 : (' ' :: (spaces m' ++ ['b'])).dropWhile jsIsSpace = ['b'] := by
        rw [← hsp m' ['b']]
        exact dropWhile_spaces (m' + 1) (head_any_ws_false _ (by decide))
      rw [rsStep_ws_plain (by decide) (by decide)
        (head_spaces_ne_zero m' (head_ne_zero _ (by decide)))
        (by rw [hdrop2]; exact hbNone)]
      rw [hdrop2, removeSpaceAux_id _ _ (by decide)]
      decide
    rw [show str "a" ++ spaces (n' + 1) ++ str ";" ++ spaces (m' + 1) ++ str "b" =
        'a' :: (spaces (n' + 1) ++ (';' :: (spaces (m' + 1) ++ ['b']))) from by
      rw [show str "a" = ['a'] from by decide, show str ";" = [';'] from by decide,
        show str "b" = ['b'] from by decide]
      simp]
    show removeSpaceAux _ _ = _
    rw [show ('a' :: (spaces (n' + 1) ++ (';' :: (spaces (m' + 1) ++ ['b'])))).length =
      (n' + m' + 1) + 4 from by simp [spaces]; try omega]
    exact key (n' + m' + 1)
  · -- `a;⟨ws⟩b` : the scan reaches `;` directly and deletes the run
    have key : ∀ f, removeSpaceAux (f + 2)
        ('a' :: ';' :: (spaces (m' + 1) ++ ['b'])) = str "a;b" := by
      intro f
      rw [rsStep_plain (by decide) (head_ne_zero _ (by decide)) (by decide)]
      rw [rsStep_sym_ws (by decide) (by
        rw [hsp m' ['b']]; simp [show jsIsSpace ' ' = true from by decide])]
      rw [dropWhile_spaces (m' + 1) (head_any_ws_false _ (by decide))]
      rw [removeSpaceAux_id _ _ (by decide)]
      decide
    rw [show str "a;" ++ spaces (m' + 1) ++ str "b" =
        'a' :: ';' :: (spaces (m' + 1) ++ ['b']) from by
      rw [show str "a;" = ['a', ';'] from by decide, show str "b" = ['b'] from by decide]
      simp]
    show removeSpaceAux _ _ = _
    rw [show ('a' :: ';' :: (spaces (m' + 1) ++ ['b'])).length = (m' + 2) + 2 from by
      simp [spaces]; try omega]
    exact key (m' + 2)
  · -- `a⟨ws⟩b` : a free-standing run collapses to exactly one space
    have key : ∀ f, removeSpaceAux (f + 2)
        ('a' :: (spaces (n' + 1) ++ ['b'])) = str "a b" := by
      intro f
      rw [rsStep_plain (by decide) (head_spaces_ne_zero _ (head_ne_zero _ (by decide)))
        (by decide)]
      rw [hsp n' ['b']]
      have hdrop : (' ' :: (spaces n' ++ ['b'])).dropWhile jsIsSpace = ['b'] := by
        rw [← hsp n' ['b']]
        exact dropWhile_spaces (n' + 1) (head_any_ws_false _ (by decide))
      rw [rsStep_ws_plain (by decide) (by decide)
        (head_spaces_ne_zero n' (head_ne_zero _ (by decide)))
        (by rw [hdrop]; exact hbNone)]
      rw [hdrop, removeSpaceAux_id _ _ (by decide)]
      decide
    rw [show str "a" ++ spaces (n' + 1) ++ str "b" =
        'a' :: (spaces (n' + 1) ++ ['b']) from by
      rw [show str "a" = ['a'] from by decide, show str "b" = ['b'] from by decide]
      simp]
    show removeSpaceAux _ _ = _
    rw [show ('a' :: (spaces (n' + 1) ++ ['b'])).length = (n' + 1) + 2 from by
      simp [spaces]; try omega]
    exact key (n' + 1)

/-- Witness for the amended C2 at concrete run lengths. -/
theorem C2_amended_witness :
    removeSpace (str "a" ++ spaces 2 ++ str ";" ++ spaces 2 ++ str "b") =
      str "a; b" :=
  (C2_amended_adjacency 2 2 (by decide) (by decide)).1

/-- Claim C3, counterexample.  `minifyJsCode` is not idempotent:
`minify("a ; b") = "a; b"` (the space after `;` survives, see C2), but
`minify("a; b") = "a;b"` — the second run reaches the `;` directly and the
`(sym)\s+` alternative deletes the space. -/
theorem C3_counterexample :
    minifyJsCode (minifyJsCode (str "a ; b") false) false ≠
      minifyJsCode (str "a ; b") false := by decide

/-- On a text containing none of the pipeline's trigger characters (here:
ASCII letters only) and no occurrence of the text `null` (which
`setLiteralsToValiable` would replace, because `String(null)` is the pattern
when the quoted-literal match is `null`), `minifyJsCode` is the identity. -/
theorem minify_plain_id (t : Str) (hl : allLetters t)
    (hnull : occurs (str "null") t = false) :
    minifyJsCode t false = t := by
  have hnm : ∀ d : Char, isAsciiLetter d = false → d ∉ t := fun d hd =>
    not_mem_of_allLetters hl hd
  have hslash : '/' ∉ t := hnm '/' (by decide)
  have h1 : removeHTMLComment t = t :=
    removeHTMLComment_id (occurs_eq_false (by decide : '!' ∈ str "<!--")
      (hnm '!' (by decide)))
  have h2 : removeSLComment t = t :=
    removeSLComment_id (occurs_eq_false (by decide : '/' ∈ str "//") hslash)
  have h3 : tabCrlfToSpace t = t :=
    tabCrlfToSpace_id t (hnm '\t' (by decide)) (hnm '\r' (by decide))
      (hnm '\n' (by decide))
  have h4 : removeMLComment t = t :=
    removeMLComment_id (occurs_eq_false (by decide : '/' ∈ str "/*") hslash)
  have hbt : '`' ∉ t := hnm '`' (by decide)
  have hlits : escapeLiterals t = [none] := by
    unfold escapeLiterals
    rw [matchTemplates_nil hbt, removeTemplates_id hbt,
      matchQuoted_nil (hnm '"' (by decide)) (hnm '\'' (by decide))]
    rfl
  have hset : setLiteralsToValiable t [none] = t := by
    show replaceFirst (str "null") (placeholderStr 0) t = t
    exact replaceFirst_of_not_occurs hnull
  have hget : getLiteralsFromValiable t [none] = t := by
    show replaceFirst (placeholderStr 0) (escapeDollar []) t = t
    exact replaceFirst_of_not_occurs
      (occurs_eq_false (by decide : '_' ∈ placeholderStr 0) (hnm '_' (by decide)))
  simp only [minifyJsCode]
  rw [h1, h2, h3, h4, hlits, hset,
    escapeQuotInRegexPattern_id (hnm '"' (by decide)),
    escapeAposInRegexPattern_id (hnm '\'' (by decide)),
    escapeBacktickInRegexPattern_id hbt,
    removeSpace_id (fun c hc => letter_not_jsSpace (hl c hc)),
    hget,
    restoreBacktickInRegexPattern_id (hnm chDLE (by decide)),
    restoreAposInRegexPattern_id (hnm chSI (by decide)),
    restoreQuotInRegexPattern_id (hnm chSO (by decide)),
    preserveComment_none (occurs_eq_false (by decide : '/' ∈ str "/*!") hslash)]
  cases t with
  | nil => rfl
  | cons c t' =>
    rw [stripLeadingScriptTag_no_lt
      (letter_not_jsSpace (hl c (List.mem_cons_self c t')))
      (letter_ne (hl c (List.mem_cons_self c t')) (by decide))]
    rfl

/-- Claim C3, amended: `minifyJsCode` is not idempotent in general (see the
counterexample), but it is idempotent on inputs it maps to themselves — for
instance any text of ASCII letters with no occurrence of `null`, on which
every stage is the identity. -/
theorem C3_amended_idempotent_on_plain (t : Str) (hl : allLetters t)
    (hnull : occurs (str "null") t = false) :
    minifyJsCode t false = t ∧
    minifyJsCode (minifyJsCode t false) false = minifyJsCode t false := by
  have hid := minify_plain_id t hl hnull
  exact ⟨hid, by rw [hid]; exact hid⟩

/-- Witness for the amended C3 at a concrete plain input. -/
theorem C3_amended_witness :
    minifyJsCode (minifyJsCode (str "abc") false) false =
      minifyJsCode (str "abc") false :=
  (C3_amended_idempotent_on_plain (str "abc") (by decide) (by decide)).2

/-! ### Deletion lemmas for the comment strippers -/

theorem mem_of_getLast? {l : Str} {a : Char} (h : l.getLast? = some a) : a ∈ l := by
  rcases List.mem_getLast?_eq_getLast (l := l) (x := a) (by rw [h]; rfl) with ⟨hne, he⟩
  exact he ▸ List.getLast_mem hne

theorem getLast_not_of_allLetters {s : Str} (hs : allLetters s) {d : Char}
    (hd : isAsciiLetter d = false) : s.getLast? ≠ some d :=
  fun h => letter_ne (hs d (mem_of_getLast? h)) hd rfl

theorem removeHTMLCommentAux_nil (fuel : Nat) : removeHTMLCommentAux fuel [] = [] := by
  cases fuel <;> rfl

theorem removeSLCommentAux_nil (fuel : Nat) (prev : Option Char) :
    removeSLCommentAux fuel prev [] = [] := by
  cases fuel <;> rfl

theorem removeMLCommentAux_nil (fuel : Nat) : removeMLCommentAux fuel [] = [] := by
  cases fuel <;> rfl

theorem removeMLCommentAux_zero (s : Str) : removeMLCommentAux 0 s = s := rfl

theorem preserveCommentAux_zero (s : Str) : preserveCommentAux 0 s = [] := rfl

/-- Definitional unfolding of one `removeHTMLCommentAux` step. -/
theorem removeHTMLCommentAux_cons (fuel : Nat) (c : Char) (rest : Str) :
    removeHTMLCommentAux (fuel + 1) (c :: rest) =
      if (str "<!--").isPrefixOf (c :: rest) then
        match findNoNL (str "-->") ((c :: rest).drop 4) with
        | some j => removeHTMLCommentAux fuel ((c :: rest).drop (4 + j + 3))
        | none => c :: removeHTMLCommentAux fuel rest
      else c :: removeHTMLCommentAux fuel rest := rfl

/-- Definitional unfolding of one `removeSLCommentAux` step. -/
theorem removeSLCommentAux_cons (fuel : Nat) (prev : Option Char) (c : Char) (rest : Str) :
    removeSLCommentAux (fuel + 1) prev (c :: rest) =
      if (str "//").isPrefixOf (c :: rest) && prev ≠ some ':' then
        removeSLCommentAux fuel
          (((c :: rest).take (((c :: rest).takeWhile (fun x => !isLineTerm x)).length)).getLast?)
          ((c :: rest).drop (((c :: rest).takeWhile (fun x => !isLineTerm x)).length))
      else c :: removeSLCommentAux fuel (some c) rest := rfl

/-- Definitional unfolding of one `removeMLCommentAux` step. -/
theorem removeMLCommentAux_cons (fuel : Nat) (c : Char) (rest : Str) :
    removeMLCommentAux (fuel + 1) (c :: rest) =
      if (str "/*").isPrefixOf (c :: rest) then
        match findNoNL (str "*/") ((c :: rest).drop 2) with
        | some j => removeMLCommentAux fuel ((c :: rest).drop (2 + j + 2))
        | none => c :: removeMLCommentAux fuel rest
      else c :: removeMLCommentAux fuel rest := rfl

/-- Definitional unfolding of one `preserveCommentAux` step. -/
theorem preserveCommentAux_cons (fuel : Nat) (c : Char) (rest : Str) :
    preserveCommentAux (fuel + 1) (c :: rest) =
      if (str "/*!").isPrefixOf (c :: rest) then
        match findSub (str "*/") ((c :: rest).drop 3) with
        | some j =>
          ((c :: rest).take (3 + j + 2)) :: preserveCommentAux fuel ((c :: rest).drop (3 + j + 2))
        | none => preserveCommentAux fuel rest
      else preserveCommentAux fuel rest := rfl

/-- `removeHTMLComment` deletes a whole single-line HTML comment standing
alone. -/
theorem removeHTMLComment_delete {s : Str} (hdash : '-' ∉ s)
    (hnl : ∀ c ∈ s, isLineTerm c = false) :
    removeHTMLComment (str "<!--" ++ s ++ str "-->") = [] := by
  unfold removeHTMLComment
  rw [show (str "<!--" ++ s ++ str "-->").length = (s.length + 6) + 1 from by
    simp [show (str "<!--").length = 4 from by decide,
      show (str "-->").length = 3 from by decide]; omega]
  show removeHTMLCommentAux (s.length + 6 + 1)
    ('<' :: ('!' :: ('-' :: ('-' :: (s ++ str "-->"))))) = []
  rw [removeHTMLCommentAux_cons]
  rw [if_pos (by
    show (str "<!--").isPrefixOf (str "<!--" ++ (s ++ str "-->")) = true
    exact List.isPrefixOf_iff_prefix.mpr (List.prefix_append _ _))]
  have hfind : findNoNL (str "-->")
      (('<' :: ('!' :: ('-' :: ('-' :: (s ++ str "-->"))))).drop 4) = some s.length := by
    show findNoNL (str "-->") (s ++ str "-->") = some s.length
    rw [show s ++ str "-->" = s ++ ('-' :: str "->") ++ [] from by
      rw [show str "-->" = '-' :: str "->" from by decide]; simp]
    exact findNoNL_append [] hdash hnl
  rw [hfind]
  show removeHTMLCommentAux (s.length + 6)
    (('<' :: ('!' :: ('-' :: ('-' :: (s ++ str "-->"))))).drop (4 + s.length + 3)) = []
  rw [List.drop_eq_nil_of_le (by
    simp [show (str "-->").length = 3 from by decide]; omega)]
  exact removeHTMLCommentAux_nil _

/-- `removeSLComment` deletes a `//` comment reaching to the end of the
text. -/
theorem removeSLComment_delete {s : Str} (hnl : ∀ c ∈ s, isLineTerm c = false) :
    removeSLComment (str "//" ++ s) = [] := by
  unfold removeSLComment
  rw [show (str "//" ++ s).length = (s.length + 1) + 1 from by
    simp [show (str "//").length = 2 from by decide]; omega]
  show removeSLCommentAux (s.length + 1 + 1) none ('/' :: ('/' :: s)) = []
  rw [removeSLCommentAux_cons]
  rw [if_pos (by
    rw [Bool.and_eq_true]
    refine ⟨?_, by decide⟩
    show (str "//").isPrefixOf (str "//" ++ s) = true
    exact List.isPrefixOf_iff_prefix.mpr (List.prefix_append _ _))]
  have htake : ('/' :: ('/' :: s)).takeWhile (fun x => !isLineTerm x) =
      '/' :: ('/' :: s) :=
    List.takeWhile_eq_self_iff.mpr (by
      intro x hx
      simp only [Bool.not_eq_true']
      simp only [List.mem_cons] at hx
      rcases hx with rfl | rfl | hx
      · decide
      · decide
      · exact hnl x hx)
  rw [htake]
  rw [List.drop_eq_nil_of_le (by simp)]
  exact removeSLCommentAux_nil _ _

/-- Scanning past a slash-free prefix leaves `removeMLComment` untouched
there. -/
theorem removeMLCommentAux_skip {a : Str} (t : Str) (ha : '/' ∉ a) :
    ∀ (fuel : Nat), removeMLCommentAux fuel (a ++ t) =
      a ++ removeMLCommentAux (fuel - a.length) t := by
  induction a with
  | nil => intro fuel; rfl
  | cons c a' ih =>
    intro fuel
    cases fuel with
    | zero => rw [Nat.zero_sub]; simp [removeMLCommentAux_zero]
    | succ f =>
      have hc : c ≠ '/' := fun e => ha (e ▸ List.mem_cons_self c a')
      have hpre : (str "/*").isPrefixOf (c :: (a' ++ t)) = false := by
        rw [show str "/*" = '/' :: str "*" from by decide]
        simp [List.isPrefixOf, Ne.symm hc]
      show removeMLCommentAux (f + 1) (c :: (a' ++ t)) = _
      rw [removeMLCommentAux_cons, hpre]
      simp only [Bool.false_eq_true, if_false]
      rw [ih (fun hm => ha (List.mem_cons_of_mem c hm)) f]
      simp [Nat.succ_sub_succ]

/-- `removeMLComment` deletes one `/*…*/` block (no `*` and no line
terminator inside) and goes on with the remainder. -/
theorem removeMLCommentAux_delete {u : Str} (t : Str) (hu : '*' ∉ u)
    (hnl : ∀ c ∈ u, isLineTerm c = false) (fuel : Nat) :
    removeMLCommentAux (fuel + 1) (str "/*" ++ u ++ str "*/" ++ t) =
      removeMLCommentAux fuel t := by
  show removeMLCommentAux (fuel + 1) ('/' :: ('*' :: (u ++ str "*/" ++ t))) = _
  rw [removeMLCommentAux_cons]
  rw [if_pos (by
    show (str "/*").isPrefixOf (str "/*" ++ (u ++ str "*/" ++ t)) = true
    exact List.isPrefixOf_iff_prefix.mpr (List.prefix_append _ _))]
  have hfind : findNoNL (str "*/") (('/' :: ('*' :: (u ++ str "*/" ++ t))).drop 2) =
      some u.length := by
    show findNoNL (str "*/") (u ++ str "*/" ++ t) = some u.length
    rw [show str "*/" = '*' :: str "/" from by decide]
    exact findNoNL_append t hu hnl
  rw [hfind]
  show removeMLCommentAux fuel
    (('/' :: ('*' :: (u ++ str "*/" ++ t))).drop (2 + u.length + 2)) = _
  have hdrop : ('/' :: ('*' :: (u ++ str "*/" ++ t))).drop (2 + u.length + 2) = t := by
    show (str "/*" ++ (u ++ str "*/" ++ t)).drop (2 + u.length + 2) = t
    rw [show str "/*" ++ (u ++ str "*/" ++ t) = (str "/*" ++ u ++ str "*/") ++ t from by
      simp]
    rw [show 2 + u.length + 2 = (str "/*" ++ u ++ str "*/").length from by
      simp [show (str "/*").length = 2 from by decide,
        show (str "*/").length = 2 from by decide]; omega]
    exact List.drop_left _ _
  rw [hdrop]

/-- Scanning past a slash-free prefix collects no preserved comments. -/
theorem preserveCommentAux_skip {a : Str} (t : Str) (ha : '/' ∉ a) :
    ∀ (fuel : Nat), preserveCommentAux fuel (a ++ t) =
      preserveCommentAux (fuel - a.length) t := by
  induction a with
  | nil => intro fuel; rfl
  | cons c a' ih =>
    intro fuel
    cases fuel with
    | zero => rw [Nat.zero_sub]; simp [preserveCommentAux_zero]
    | succ f =>
      have hc : c ≠ '/' := fun e => ha (e ▸ List.mem_cons_self c a')
      have hpre : (str "/*!").isPrefixOf (c :: (a' ++ t)) = false := by
        rw [show str "/*!" = '/' :: str "*!" from by decide]
        simp [List.isPrefixOf, Ne.symm hc]
      show preserveCommentAux (f + 1) (c :: (a' ++ t)) = _
      rw [preserveCommentAux_cons, hpre]
      simp only [Bool.false_eq_true, if_false]
      rw [ih (fun hm => ha (List.mem_cons_of_mem c hm)) f]
      simp [Nat.succ_sub_succ]

/-- `preserveComment` captures one `/*!…*/` block (no `*` inside). -/
theorem preserveCommentAux_match {u : Str} (t : Str) (hu : '*' ∉ u) (fuel : Nat) :
    preserveCommentAux (fuel + 1) (str "/*!" ++ u ++ str "*/" ++ t) =
      (str "/*!" ++ u ++ str "*/") :: preserveCommentAux fuel t := by
  show preserveCommentAux (fuel + 1) ('/' :: ('*' :: ('!' :: (u ++ str "*/" ++ t)))) = _
  rw [preserveCommentAux_cons]
  rw [if_pos (by
    show (str "/*!").isPrefixOf (str "/*!" ++ (u ++ str "*/" ++ t)) = true
    exact List.isPrefixOf_iff_prefix.mpr (List.prefix_append _ _))]
  have hfind : findSub (str "*/")
      (('/' :: ('*' :: ('!' :: (u ++ str "*/" ++ t)))).drop 3) = some u.length := by
    show findSub (str "*/") (u ++ str "*/" ++ t) = some u.length
    rw [show str "*/" = '*' :: str "/" from by decide]
    exact findSub_append t hu
  rw [hfind]
  show (('/' :: ('*' :: ('!' :: (u ++ str "*/" ++ t)))).take (3 + u.length + 2)) ::
    preserveCommentAux fuel
      (('/' :: ('*' :: ('!' :: (u ++ str "*/" ++ t)))).drop (3 + u.length + 2)) = _
  have hlen : 3 + u.length + 2 = (str "/*!" ++ u ++ str "*/").length := by
    simp [show (str "/*!").length = 3 from by decide,
      show (str "*/").length = 2 from by decide]; omega
  have hsplit : '/' :: ('*' :: ('!' :: (u ++ str "*/" ++ t))) =
      (str "/*!" ++ u ++ str "*/") ++ t := by
    show str "/*!" ++ (u ++ str "*/" ++ t) = (str "/*!" ++ u ++ str "*/") ++ t
    simp
  rw [hsplit, hlen, List.take_left, List.drop_left]

/-- With an empty text after comment stripping, the remaining pipeline
produces the empty text, so the output is just the reattached comments. -/
theorem minify_of_m4_nil {inp : Str}
    (h4 : removeMLComment (tabCrlfToSpace (removeSLComment (removeHTMLComment inp))) = []) :
    minifyJsCode inp false = concatComments [] (preserveComment inp) := by
  simp only [minifyJsCode]
  rw [h4]
  rw [show stripLeadingScriptTag (restoreQuotInRegexPattern (restoreAposInRegexPattern
      (restoreBacktickInRegexPattern (getLiteralsFromValiable (removeSpace
      (escapeBacktickInRegexPattern (escapeAposInRegexPattern (escapeQuotInRegexPattern
      (setLiteralsToValiable [] (escapeLiterals [])))))) (escapeLiterals []))))) = []
    from by decide]
  rfl

/-! ### Occurrence counting -/

theorem prefix_length {p u : Str} (h : p.isPrefixOf u = true) : p.length ≤ u.length :=
  (List.isPrefixOf_iff_prefix.mp h).length_le

theorem countOcc_zero_of_short {p : Str} :
    ∀ {t : Str}, t.length < p.length → countOcc p t = 0
  | [], h => by
    unfold countOcc
    rw [if_neg (fun hp => by
      have hl := prefix_length hp
      simp only [List.length_nil] at hl h
      omega)]
  | c :: r, h => by
    unfold countOcc
    rw [if_neg (fun hp => by
      have hl := prefix_length hp
      simp only [List.length_cons] at hl h
      omega)]
    rw [countOcc_zero_of_short (by simp only [List.length_cons] at h; omega)]

theorem countOcc_cons (p : Str) (c : Char) (r : Str) :
    countOcc p (c :: r) = (if p.isPrefixOf (c :: r) then 1 else 0) + countOcc p r := rfl

theorem isPrefixOf_cons_cons (a b : Char) (as bs : Str) :
    (a :: as).isPrefixOf (b :: bs) = (a == b && as.isPrefixOf bs) := rfl

theorem not_mem_append {d : Char} {a b : Str} (ha : d ∉ a) (hb : d ∉ b) :
    d ∉ a ++ b := by
  intro hm
  rcases List.mem_append.mp hm with h | h
  · exact ha h
  · exact hb h

/-- After its leading `/`, the text `/*!…*/` + newline offers no further
match of the full comment, so it occurs exactly once. -/
theorem countOcc_preserved {s : Str} :
    countOcc ((str "/*!" ++ s) ++ str "*/")
      (((str "/*!" ++ s) ++ str "*/") ++ ['\n']) = 1 := by
  have hp3 : (str "/*!" ++ s) ++ str "*/" = '/' :: ('*' :: ('!' :: (s ++ str "*/"))) := by
    rw [List.append_assoc]
    rfl
  rw [hp3]
  simp only [List.cons_append]
  have h0 : (('/' :: ('*' :: ('!' :: (s ++ str "*/"))))).isPrefixOf
      ('/' :: ('*' :: ('!' :: ((s ++ str "*/") ++ ['\n'])))) = true := by
    have hpre := List.isPrefixOf_iff_prefix.mpr
      (List.prefix_append ('/' :: ('*' :: ('!' :: (s ++ str "*/")))) ['\n'])
    simpa only [List.cons_append] using hpre
  rw [countOcc_cons, if_pos h0]
  rw [countOcc_cons, isPrefixOf_cons_cons]
  rw [if_neg (by simp)]
  rw [countOcc_zero_of_short (by
    simp only [List.length_cons, List.length_append, List.length_nil,
      show (str "*/").length = 2 from by decide]
    omega)]

/-- Claim C4, amended.  For an all-letter comment body `s`: a single-line
HTML comment, a `//` comment, and an unmarked `/*…*/` comment standing
alone each minify to the empty output (no character of the body survives),
while a preserve-tagged comment `/*!s*/` standing alone is kept: the output
is the comment followed by a newline, and the comment text occurs exactly
once in it.  (The original claim fails for multi-line comment bodies, see
the counterexample; line terminators cannot appear in an all-letter body.) -/
theorem C4_amended (s : Str) (hs : allLetters s) :
    minifyJsCode (str "<!--" ++ s ++ str "-->") false = [] ∧
    minifyJsCode (str "//" ++ s) false = [] ∧
    minifyJsCode (str "/*" ++ s ++ str "*/") false = [] ∧
    minifyJsCode (str "/*!" ++ s ++ str "*/") false =
      (str "/*!" ++ s ++ str "*/") ++ ['\n'] ∧
    countOcc (str "/*!" ++ s ++ str "*/")
      (minifyJsCode (str "/*!" ++ s ++ str "*/") false) = 1 := by
  have hmem : ∀ d : Char, isAsciiLetter d = false → d ∉ s := fun d hd =>
    not_mem_of_allLetters hs hd
  have hnlS : ∀ c ∈ s, isLineTerm c = false := fun c hc =>
    letter_not_lineTerm (hs c hc)
  have hA : minifyJsCode (str "<!--" ++ s ++ str "-->") false = [] := by
    have h1 : removeHTMLComment (str "<!--" ++ s ++ str "-->") = [] :=
      removeHTMLComment_delete (hmem '-' (by decide)) hnlS
    have h4 : removeMLComment (tabCrlfToSpace (removeSLComment
        (removeHTMLComment (str "<!--" ++ s ++ str "-->")))) = [] := by
      rw [h1]; decide
    rw [minify_of_m4_nil h4]
    rw [preserveComment_none (occurs_eq_false (c := '/') (by decide)
      (not_mem_append (not_mem_append (by decide) (hmem '/' (by decide)))
        (by decide)))]
    rfl
  have hB : minifyJsCode (str "//" ++ s) false = [] := by
    have h1 : removeHTMLComment (str "//" ++ s) = str "//" ++ s :=
      removeHTMLComment_id (occurs_eq_false (c := '<') (by decide)
        (not_mem_append (by decide) (hmem '<' (by decide))))
    have h2 : removeSLComment (str "//" ++ s) = [] := removeSLComment_delete hnlS
    have h4 : removeMLComment (tabCrlfToSpace (removeSLComment
        (removeHTMLComment (str "//" ++ s)))) = [] := by
      rw [h1, h2]; decide
    rw [minify_of_m4_nil h4]
    rw [preserveComment_none (occurs_eq_false (c := '*') (by decide)
      (not_mem_append (by decide) (hmem '*' (by decide))))]
    rfl
  have hC : minifyJsCode (str "/*" ++ s ++ str "*/") false = [] := by
    have hsl : occurs (str "//") (str "/*" ++ s ++ str "*/") = false := by
      show occurs ['/', '/'] ((str "/*" ++ s) ++ str "*/") = false
      refine occurs_pair_append_false ?_ (by decide) ?_
      · refine occurs_pair_append_false (by decide)
          (occurs_eq_false (c := '/') (by decide) (hmem '/' (by decide))) ?_
        intro h
        exact absurd h.1 (by decide)
      · intro h
        exact absurd h.2 (by decide)
    have hml : removeMLComment (str "/*" ++ s ++ str "*/") = [] := by
      unfold removeMLComment
      rw [show ((str "/*" ++ s) ++ str "*/").length = (s.length + 3) + 1 from by
        simp only [List.length_append, show (str "/*").length = 2 from by decide,
          show (str "*/").length = 2 from by decide]
        omega]
      rw [show (str "/*" ++ s) ++ str "*/" = str "/*" ++ s ++ str "*/" ++ [] from by
        simp]
      rw [removeMLCommentAux_delete [] (hmem '*' (by decide)) hnlS (s.length + 3)]
      exact removeMLCommentAux_nil _
    have h4 : removeMLComment (tabCrlfToSpace (removeSLComment
        (removeHTMLComment (str "/*" ++ s ++ str "*/")))) = [] := by
      rw [removeHTMLComment_id (occurs_eq_false (c := '<') (by decide)
        (not_mem_append (not_mem_append (by decide) (hmem '<' (by decide)))
          (by decide)))]
      rw [removeSLComment_id hsl]
      rw [tabCrlfToSpace_id _
        (not_mem_append (not_mem_append (by decide) (hmem '\t' (by decide)))
          (by decide))
        (not_mem_append (not_mem_append (by decide) (hmem '\r' (by decide)))
          (by decide))
        (not_mem_append (not_mem_append (by decide) (hmem '\n' (by decide)))
          (by decide))]
      exact hml
    rw [minify_of_m4_nil h4]
    rw [preserveComment_none (occurs_eq_false (c := '!') (by decide)
      (not_mem_append (not_mem_append (by decide) (hmem '!' (by decide)))
        (by decide)))]
    rfl
  have hD : minifyJsCode (str "/*!" ++ s ++ str "*/") false =
      (str "/*!" ++ s ++ str "*/") ++ ['\n'] := by
    have hsl : occurs (str "//") (str "/*!" ++ s ++ str "*/") = false := by
      show occurs ['/', '/'] ((str "/*!" ++ s) ++ str "*/") = false
      refine occurs_pair_append_false ?_ (by decide) ?_
      · refine occurs_pair_append_false (by decide)
          (occurs_eq_false (c := '/') (by decide) (hmem '/' (by decide))) ?_
        intro h
        exact absurd h.1 (by decide)
      · intro h
        exact absurd h.2 (by decide)
    have hnlB : ∀ c ∈ '!' :: s, isLineTerm c = false := by
      intro c hc
      rcases List.mem_cons.mp hc with rfl | hc
      · decide
      · exact hnlS c hc
    have hstarB : '*' ∉ '!' :: s := by
      intro hm
      rcases List.mem_cons.mp hm with h | h
      · exact absurd h (by decide)
      · exact hmem '*' (by decide) h
    have hml : removeMLComment (str "/*!" ++ s ++ str "*/") = [] := by
      unfold removeMLComment
      rw [show ((str "/*!" ++ s) ++ str "*/").length = (s.length + 4) + 1 from by
        simp only [List.length_append, show (str "/*!").length = 3 from by decide,
          show (str "*/").length = 2 from by decide]
        omega]
      rw [show (str "/*!" ++ s) ++ str "*/" = str "/*" ++ ('!' :: s) ++ str "*/" ++ []
        from by
        rw [show str "/*!" = str "/*" ++ ['!'] from by decide]
        simp]
      rw [removeMLCommentAux_delete [] hstarB hnlB (s.length + 4)]
      exact removeMLCommentAux_nil _
    have h4 : removeMLComment (tabCrlfToSpace (removeSLComment
        (removeHTMLComment (str "/*!" ++ s ++ str "*/")))) = [] := by
      rw [removeHTMLComment_id (occurs_eq_false (c := '<') (by decide)
        (not_mem_append (not_mem_append (by decide) (hmem '<' (by decide)))
          (by decide)))]
      rw [removeSLComment_id hsl]
      rw [tabCrlfToSpace_id _
        (not_mem_append (not_mem_append (by decide) (hmem '\t' (by decide)))
          (by decide))
        (not_mem_append (not_mem_append (by decide) (hmem '\r' (by decide)))
          (by decide))
        (not_mem_append (not_mem_append (by decide) (hmem '\n' (by decide)))
          (by decide))]
      exact hml
    rw [minify_of_m4_nil h4]
    have hpcAux : preserveCommentAux ((s.length + 4) + 1)
        ((str "/*!" ++ s) ++ str "*/") = [(str "/*!" ++ s) ++ str "*/"] := by
      rw [show (str "/*!" ++ s) ++ str "*/" = str "/*!" ++ s ++ str "*/" ++ [] from by
        simp]
      rw [preserveCommentAux_match [] (hmem '*' (by decide)) (s.length + 4)]
      rw [preserveCommentAux_nil _ [] (by decide)]
      simp
    have hpc : preserveComment ((str "/*!" ++ s) ++ str "*/") =
        some [(str "/*!" ++ s) ++ str "*/"] := by
      unfold preserveComment
      rw [show ((str "/*!" ++ s) ++ str "*/").length = (s.length + 4) + 1 from by
        simp only [List.length_append, show (str "/*!").length = 3 from by decide,
          show (str "*/").length = 2 from by decide]
        omega]
      rw [hpcAux]
    rw [hpc]
    show joinNL [(str "/*!" ++ s) ++ str "*/"] ++ '\n' :: [] =
      ((str "/*!" ++ s) ++ str "*/") ++ ['\n']
    rfl
  refine ⟨hA, hB, hC, hD, ?_⟩
  rw [hD]
  exact countOcc_preserved

/-- Witness for `C4_amended` at the concrete body `keep`. -/
theorem C4_amended_witness :
    allLetters (str "keep") ∧
    (minifyJsCode (str "<!--" ++ str "keep" ++ str "-->") false = [] ∧
    minifyJsCode (str "//" ++ str "keep") false = [] ∧
    minifyJsCode (str "/*" ++ str "keep" ++ str "*/") false = [] ∧
    minifyJsCode (str "/*!" ++ str "keep" ++ str "*/") false =
      (str "/*!" ++ str "keep" ++ str "*/") ++ ['\n'] ∧
    countOcc (str "/*!" ++ str "keep" ++ str "*/")
      (minifyJsCode (str "/*!" ++ str "keep" ++ str "*/") false) = 1) :=
  ⟨by decide, C4_amended (str "keep") (by decide)⟩

/-- Claim C4, counterexample.  The claim states that the body text of a
non-preserved comment never appears in the output.  `removeHTMLComment` uses
`/<!--.*?-->/gm` without the `s` flag, so `.` does not cross line
terminators and a multi-line HTML comment is not removed; its body `secret`
survives into the output (the input contains no preserve marker `/*!`). -/
theorem C4_counterexample :
    occurs (str "secret") C4input = true ∧
    occurs (str "/*!") C4input = false ∧
    occurs (str "secret") (minifyJsCode C4input false) = true := by decide

/-- Definitional unfolding of one `escScriptCloseAux` step. -/
theorem escScriptCloseAux_cons (fuel : Nat) (pre : Str) (c : Char) (rest : Str) :
    escScriptCloseAux (fuel + 1) pre (c :: rest) =
      if ciIsPrefix (str "</script>") (c :: rest) && lookbehindOK pre &&
         lookaheadOK ((c :: rest).drop 9) then
        ESCAPED_SCRIPT_TAG ++
          escScriptCloseAux fuel (pre ++ (c :: rest).take 9) ((c :: rest).drop 9)
      else c :: escScriptCloseAux fuel (pre ++ [c]) rest := rfl

/-- Without a backtick in the remaining text the lookahead of `escRegex`
never holds, so the sentinel substitution is the identity. -/
theorem escScriptCloseAux_id :
    ∀ (fuel : Nat) (p s : Str), '`' ∉ s → escScriptCloseAux fuel p s = s
  | 0, _, _, _ => rfl
  | _ + 1, _, [], _ => rfl
  | fuel + 1, p, c :: rest, h => by
    rw [escScriptCloseAux_cons]
    have hla : lookaheadOK ((c :: rest).drop 9) = false := by
      unfold lookaheadOK
      rw [findChar_not_mem (fun hm => h (List.mem_of_mem_drop hm))]
    rw [hla, Bool.and_false]
    simp only [Bool.false_eq_true, if_false]
    rw [escScriptCloseAux_id fuel (p ++ [c]) rest
      (fun hm => h (List.mem_cons_of_mem c hm))]

theorem escScriptClose_id {s : Str} (h : '`' ∉ s) : escScriptClose s = s :=
  escScriptCloseAux_id s.length [] s h

/-- Definitional unfolding of one `findScriptTagsAux` step. -/
theorem findScriptTagsAux_cons (fuel : Nat) (c : Char) (rest : Str) :
    findScriptTagsAux (fuel + 1) (c :: rest) =
      if (str "<script").isPrefixOf (c :: rest) &&
         !(((c :: rest).drop 7).head?.any isWordChar) then
        match findChar '>' ((c :: rest).drop 7) with
        | some k =>
          match findSub (str "</script>") (((c :: rest).drop 7).drop (k + 1)) with
          | some q =>
            ((c :: rest).take (7 + k + 1 + q + 9)) ::
              findScriptTagsAux fuel ((c :: rest).drop (7 + k + 1 + q + 9))
          | none => findScriptTagsAux fuel rest
        | none => findScriptTagsAux fuel rest
      else findScriptTagsAux fuel rest := rfl

theorem findScriptTagsAux_nil :
    ∀ (fuel : Nat) (s : Str), '<' ∉ s → findScriptTagsAux fuel s = []
  | 0, _, _ => rfl
  | _ + 1, [], _ => rfl
  | fuel + 1, c :: rest, h => by
    rw [findScriptTagsAux_cons]
    have hc : c ≠ '<' := fun e => h (e ▸ List.mem_cons_self c rest)
    have hpre : (str "<script").isPrefixOf (c :: rest) = false := by
      rw [show str "<script" = '<' :: str "script" from by decide,
        isPrefixOf_cons_cons]
      simp [Ne.symm hc]
    rw [hpre, Bool.false_and]
    simp only [Bool.false_eq_true, if_false]
    exact findScriptTagsAux_nil fuel rest (fun hm => h (List.mem_cons_of_mem c hm))

/-- Scanning past an angle-bracket-free prefix finds no script tag there. -/
theorem findScriptTagsAux_skip {a : Str} (t : Str) (ha : '<' ∉ a) :
    ∀ (fuel : Nat), findScriptTagsAux fuel (a ++ t) =
      findScriptTagsAux (fuel - a.length) t := by
  induction a with
  | nil => intro fuel; rfl
  | cons c a' ih =>
    intro fuel
    cases fuel with
    | zero => rw [Nat.zero_sub]; rfl
    | succ f =>
      have hc : c ≠ '<' := fun e => ha (e ▸ List.mem_cons_self c a')
      have hpre : (str "<script").isPrefixOf (c :: (a' ++ t)) = false := by
        rw [show str "<script" = '<' :: str "script" from by decide,
          isPrefixOf_cons_cons]
        simp [Ne.symm hc]
      show findScriptTagsAux (f + 1) (c :: (a' ++ t)) = _
      rw [findScriptTagsAux_cons, hpre, Bool.false_and]
      simp only [Bool.false_eq_true, if_false]
      rw [ih (fun hm => ha (List.mem_cons_of_mem c hm)) f]
      simp [Nat.succ_sub_succ]

/-- One `findScriptTagsAux` step at the start of the concrete script region
`<script>a ; b</script>` extracts exactly that region. -/
theorem findScriptTagsAux_tag (post : Str) (f : Nat) :
    findScriptTagsAux (f + 1) (str "<script>a ; b</script>" ++ post) =
      (str "<script>a ; b</script>") :: findScriptTagsAux f post := by
  show findScriptTagsAux (f + 1) ('<' :: (str "script>a ; b</script>" ++ post)) = _
  have hcond : ((str "<script").isPrefixOf ('<' :: (str "script>a ; b</script>" ++ post)) &&
      !((('<' :: (str "script>a ; b</script>" ++ post)).drop 7).head?.any isWordChar)) = true := by
    rw [Bool.and_eq_true]
    constructor
    · show (str "<script").isPrefixOf (str "<script" ++ (str ">a ; b</script>" ++ post)) = true
      exact List.isPrefixOf_iff_prefix.mpr (List.prefix_append _ _)
    · show (!((str ">a ; b</script>" ++ post).head?.any isWordChar)) = true
      rfl
  have hk : findChar '>' (('<' :: (str "script>a ; b</script>" ++ post)).drop 7) =
      some 0 := rfl
  rw [findScriptTagsAux_cons, if_pos hcond, hk]
  have hsub : findSub (str "</script>")
      ((('<' :: (str "script>a ; b</script>" ++ post)).drop 7).drop (0 + 1)) = some 5 := by
    show findSub ('<' :: str "/script>")
      (str "a ; b" ++ ('<' :: str "/script>") ++ post) = some 5
    rw [show (5 : Nat) = (str "a ; b").length from by decide]
    exact findSub_append post (by decide)
  simp only [hsub]
  have htake : ('<' :: (str "script>a ; b</script>" ++ post)).take (7 + 0 + 1 + 5 + 9) =
      str "<script>a ; b</script>" := by
    show (str "<script>a ; b</script>" ++ post).take (7 + 0 + 1 + 5 + 9) = _
    rw [show (7 + 0 + 1 + 5 + 9 : Nat) = (str "<script>a ; b</script>").length from by decide]
    exact List.take_left _ _
  have hdrop : ('<' :: (str "script>a ; b</script>" ++ post)).drop (7 + 0 + 1 + 5 + 9) =
      post := by
    show (str "<script>a ; b</script>" ++ post).drop (7 + 0 + 1 + 5 + 9) = _
    rw [show (7 + 0 + 1 + 5 + 9 : Nat) = (str "<script>a ; b</script>").length from by decide]
    exact List.drop_left _ _
  rw [htake, hdrop]

/-- Claim C5, amended.  For a document whose single script region is the
concrete `<script>a ; b</script>` and whose surrounding markup consists of
letters only (no backtick, no angle bracket), `minifyJsInHtmlCore` replaces
exactly the script region by its minified form and passes every surrounding
character through byte-for-byte.  (The general claim fails when a script
region's text also occurs inside an earlier template literal, see the
counterexample.) -/
theorem C5_amended (pre post : Str) (hpre : allLetters pre) (hpost : allLetters post) :
    minifyJsInHtmlCore (pre ++ str "<script>a ; b</script>" ++ post) =
      pre ++ str "<script>a; b</script>" ++ post := by
  have hbt : '`' ∉ (pre ++ str "<script>a ; b</script>" ++ post) :=
    not_mem_append (not_mem_append (not_mem_of_allLetters hpre (by decide))
      (by decide)) (not_mem_of_allLetters hpost (by decide))
  simp only [minifyJsInHtmlCore]
  rw [escScriptClose_id hbt]
  have htags : findScriptTags (pre ++ str "<script>a ; b</script>" ++ post) =
      [str "<script>a ; b</script>"] := by
    unfold findScriptTags
    rw [show (pre ++ str "<script>a ; b</script>" ++ post).length =
        pre.length + ((21 + post.length) + 1) from by
      simp only [List.length_append,
        show (str "<script>a ; b</script>").length = 22 from by decide]
      omega]
    rw [List.append_assoc]
    rw [findScriptTagsAux_skip (a := pre) _ (not_mem_of_allLetters hpre (by decide)) _]
    rw [show pre.length + ((21 + post.length) + 1) - pre.length =
      (21 + post.length) + 1 from by omega]
    rw [findScriptTagsAux_tag post (21 + post.length)]
    rw [findScriptTagsAux_nil _ post (not_mem_of_allLetters hpost (by decide))]
  rw [htags]
  show replaceFirst
      (replaceFirst ESCAPED_SCRIPT_TAG (str "</script>") (str "<script>a ; b</script>"))
      (escapeDollar (minifyJsCode (trimHtmlCommentLines (str "<script>a ; b</script>")) true))
      (pre ++ str "<script>a ; b</script>" ++ post) = _
  rw [show replaceFirst ESCAPED_SCRIPT_TAG (str "</script>") (str "<script>a ; b</script>") =
      str "<script>a ; b</script>" from by decide]
  rw [show escapeDollar (minifyJsCode (trimHtmlCommentLines (str "<script>a ; b</script>")) true) =
      str "<script>a; b</script>" from by decide]
  rw [show str "<script>a ; b</script>" = '<' :: str "script>a ; b</script>" from by decide]
  rw [replaceFirst_append post (not_mem_of_allLetters hpre (by decide))]
  rw [show applyDollar ('<' :: str "script>a ; b</script>") (str "<script>a; b</script>") =
      str "<script>a; b</script>" from by decide]

/-- Witness for `C5_amended` at concrete surrounding markup. -/
theorem C5_amended_witness :
    allLetters (str "header") ∧ allLetters (str "footer") ∧
    minifyJsInHtmlCore (str "header" ++ str "<script>a ; b</script>" ++ str "footer") =
      str "header" ++ str "<script>a; b</script>" ++ str "footer" :=
  ⟨by decide, by decide, C5_amended (str "header") (str "footer") (by decide) (by decide)⟩

set_option maxRecDepth 100000 in
/-- Claim C5, counterexample.  In `C5doc` the first script region contains
the text of the second region twice inside one template literal; both inner
`</script>` occurrences are sentinel-escaped, but `originalJsCode` restores
only the first one, so the first region's original text is never found in
the document and its replacement is a no-op.  Processing the second region
then replaces the wrong (earlier, in-literal) occurrence of its text: the
output ends with the second script region byte-for-byte unminified even
though its minified form differs, and the first region's literal content is
altered. -/
theorem C5_counterexample :
    minifyJsCode C5tag2 true ≠ C5tag2 ∧
    minifyJsInHtmlCore C5doc =
      str "<script>q= `<script>a; b</script>x" ++ C5tag2 ++
        str "`;</script>hello" ++ C5tag2 ∧
    (minifyJsInHtmlCore C5doc).drop 72 = C5tag2 := by decide

theorem spliceComennts_some (text : Str) (cs : List Str) :
    spliceComennts text (some cs) =
      match parseScriptOpen text with
      | some (pre, rest) => pre ++ '\n' :: joinNL cs ++ '\n' :: rest
      | none => text := rfl

theorem spliceComennts_none (text : Str) : spliceComennts text none = text := rfl

theorem concatComments_none (text : Str) : concatComments text none = text := rfl

theorem concatComments_some (text : Str) (cs : List Str) :
    concatComments text (some cs) = joinNL cs ++ '\n' :: text := rfl

/-- `minifyJsCode` in terms of the comment-stripping result and
`midPipeline`. -/
theorem minify_of_m4 {inp m : Str} (b : Bool)
    (h4 : removeMLComment (tabCrlfToSpace (removeSLComment (removeHTMLComment inp))) = m) :
    minifyJsCode inp b =
      if b then spliceComennts (midPipeline m) (preserveComment inp)
      else concatComments (midPipeline m) (preserveComment inp) := by
  simp only [minifyJsCode, midPipeline]
  rw [h4]

/-- Claim C6, amended.  For an all-letter word `s`, on the input
`<script>/*! s */ x</script>` (a bare `<script>` tag, as the HTML wrapper
passes after tag normalisation): with `isEmbed = true` the preserved comment
is spliced immediately after the opening `<script>` marker, and with
`isEmbed = false` it is newline-joined and prepended before the minified
code.  (The original claim fails when the opening tag carries attributes,
see the counterexample: the splice point is not found and the comments are
dropped.) -/
theorem C6_amended (s : Str) (hs : allLetters s) :
    minifyJsCode (str "<script>/*! " ++ s ++ str " */ x</script>") true =
      str "<script>" ++ '\n' :: ((str "/*! " ++ s ++ str " */") ++ '\n' :: str "x</script>") ∧
    minifyJsCode (str "<script>/*! " ++ s ++ str " */ x</script>") false =
      (str "/*! " ++ s ++ str " */") ++ '\n' :: str "<script>x</script>" := by
  have hmem : ∀ d : Char, isAsciiLetter d = false → d ∉ s := fun d hd =>
    not_mem_of_allLetters hs hd
  have hnlS : ∀ c ∈ s, isLineTerm c = false := fun c hc =>
    letter_not_lineTerm (hs c hc)
  have hsl : occurs (str "//") (str "<script>/*! " ++ s ++ str " */ x</script>") = false := by
    show occurs ['/', '/'] ((str "<script>/*! " ++ s) ++ str " */ x</script>") = false
    refine occurs_pair_append_false ?_ (by decide) ?_
    · refine occurs_pair_append_false (by decide)
        (occurs_eq_false (c := '/') (by decide) (hmem '/' (by decide))) ?_
      intro h
      exact absurd h.1 (by decide)
    · intro h
      exact absurd h.2 (by decide)
  have hustar : '*' ∉ '!' :: (' ' :: (s ++ [' '])) := by
    intro hm
    simp only [List.mem_cons, List.mem_append] at hm
    rcases hm with h | h | h | h
    · exact absurd h (by decide)
    · exact absurd h (by decide)
    · exact hmem '*' (by decide) h
    · exact absurd h (by decide)
  have hnlu : ∀ c ∈ '!' :: (' ' :: (s ++ [' '])), isLineTerm c = false := by
    intro c hc
    simp only [List.mem_cons, List.mem_append] at hc
    rcases hc with rfl | rfl | h | rfl | h
    · decide
    · decide
    · exact hnlS c h
    · decide
    · exact absurd h (List.not_mem_nil c)
  have hshape2 : (str "<script>/*! " ++ s) ++ str " */ x</script>" =
      str "<script>" ++ (str "/*" ++ ('!' :: (' ' :: (s ++ [' ']))) ++ str "*/" ++
        str " x</script>") := by
    rw [show str "<script>/*! " = str "<script>" ++ (str "/*" ++ ['!', ' ']) from by decide,
      show str " */ x</script>" = [' '] ++ (str "*/" ++ str " x</script>") from by decide]
    simp
  have hlen : ((str "<script>/*! " ++ s) ++ str " */ x</script>").length = s.length + 26 := by
    simp only [List.length_append, show (str "<script>/*! ").length = 12 from by decide,
      show (str " */ x</script>").length = 14 from by decide]
    omega
  have hml : removeMLComment ((str "<script>/*! " ++ s) ++ str " */ x</script>") =
      str "<script> x</script>" := by
    unfold removeMLComment
    rw [hlen, hshape2]
    rw [removeMLCommentAux_skip (a := str "<script>") _ (by decide) (s.length + 26)]
    rw [show (str "<script>").length = 8 from by decide]
    rw [show s.length + 26 - 8 = (s.length + 17) + 1 from by omega]
    rw [removeMLCommentAux_delete (str " x</script>") hustar hnlu (s.length + 17)]
    rw [removeMLCommentAux_id (s.length + 17) (str " x</script>") (by decide)]
    decide
  have h4 : removeMLComment (tabCrlfToSpace (removeSLComment
      (removeHTMLComment (str "<script>/*! " ++ s ++ str " */ x</script>")))) =
      str "<script> x</script>" := by
    rw [removeHTMLComment_id (occurs_eq_false (c := '-') (by decide)
      (not_mem_append (not_mem_append (by decide) (hmem '-' (by decide)))
        (by decide)))]
    rw [removeSLComment_id hsl]
    rw [tabCrlfToSpace_id _
      (not_mem_append (not_mem_append (by decide) (hmem '\t' (by decide)))
        (by decide))
      (not_mem_append (not_mem_append (by decide) (hmem '\r' (by decide)))
        (by decide))
      (not_mem_append (not_mem_append (by decide) (hmem '\n' (by decide)))
        (by decide))]
    exact hml
  have hustar2 : '*' ∉ ' ' :: (s ++ [' ']) := by
    intro hm
    simp only [List.mem_cons, List.mem_append] at hm
    rcases hm with h | h | h
    · exact absurd h (by decide)
    · exact hmem '*' (by decide) h
    · exact absurd h (by decide)
  have hshape : (str "<script>/*! " ++ s) ++ str " */ x</script>" =
      str "<script>" ++ (str "/*!" ++ (' ' :: (s ++ [' '])) ++ str "*/" ++
        str " x</script>") := by
    rw [show str "<script>/*! " = str "<script>" ++ (str "/*!" ++ [' ']) from by decide,
      show str " */ x</script>" = [' '] ++ (str "*/" ++ str " x</script>") from by decide]
    simp
  have hpc : preserveComment ((str "<script>/*! " ++ s) ++ str " */ x</script>") =
      some [str "/*!" ++ (' ' :: (s ++ [' '])) ++ str "*/"] := by
    unfold preserveComment
    rw [hlen, hshape]
    rw [preserveCommentAux_skip (a := str "<script>") _ (by decide) (s.length + 26)]
    rw [show (str "<script>").length = 8 from by decide]
    rw [show s.length + 26 - 8 = (s.length + 17) + 1 from by omega]
    rw [preserveCommentAux_match (str " x</script>") hustar2 (s.length + 17)]
    rw [preserveCommentAux_nil (s.length + 17) (str " x</script>") (by decide)]
  have hmid : midPipeline (str "<script> x</script>") = str "<script>x</script>" := by
    decide
  have hcmt : str "/*!" ++ (' ' :: (s ++ [' '])) ++ str "*/" =
      str "/*! " ++ s ++ str " */" := by
    rw [show str "/*! " = str "/*!" ++ [' '] from by decide,
      show str " */" = [' '] ++ str "*/" from by decide]
    simp
  constructor
  · rw [minify_of_m4 true h4, hmid, hpc]
    show spliceComennts (str "<script>x</script>")
      (some [str "/*!" ++ (' ' :: (s ++ [' '])) ++ str "*/"]) = _
    rw [spliceComennts_some,
      show parseScriptOpen (str "<script>x</script>") =
        some (str "<script>", str "x</script>") from by decide]
    show str "<script>" ++ '\n' ::
      (str "/*!" ++ (' ' :: (s ++ [' '])) ++ str "*/") ++ '\n' :: str "x</script>" = _
    rw [hcmt]
    simp
  · rw [minify_of_m4 false h4, hmid, hpc]
    show concatComments (str "<script>x</script>")
      (some [str "/*!" ++ (' ' :: (s ++ [' '])) ++ str "*/"]) = _
    rw [concatComments_some]
    show (str "/*!" ++ (' ' :: (s ++ [' '])) ++ str "*/") ++ '\n' ::
      str "<script>x</script>" = _
    rw [hcmt]

/-- Witness for `C6_amended` at the concrete comment body `note`. -/
theorem C6_amended_witness :
    allLetters (str "note") ∧
    (minifyJsCode (str "<script>/*! " ++ str "note" ++ str " */ x</script>") true =
      str "<script>" ++ '\n' :: ((str "/*! " ++ str "note" ++ str " */") ++
        '\n' :: str "x</script>") ∧
    minifyJsCode (str "<script>/*! " ++ str "note" ++ str " */ x</script>") false =
      (str "/*! " ++ str "note" ++ str " */") ++ '\n' :: str "<script>x</script>") :=
  ⟨by decide, C6_amended (str "note") (by decide)⟩

/-- Claim C6, counterexample.  The claim states that with `isEmbed = true`
preserved comments are always spliced after the opening script-tag marker.
`spliceComennts` only matches a bare `^\s*\<\s*script\s*\>`; when the tag
carries an attribute the pattern fails and the preserved comment is dropped
entirely (it also no longer occurs in the body, which `removeMLComment`
stripped). -/
theorem C6_counterexample :
    preserveComment C6input = some [str "/*! keep */"] ∧
    occurs (str "keep") (minifyJsCode C6input true) = false := by decide

/-- Claim C7, counterexample.  The claim states that a failing stage
surfaces a typed error identifying the stage and span.  The `catch` blocks
of the source log the error to the console and fall off the end of the
function: the caller receives `undefined` (`none`), not an error value. -/
theorem C7_counterexample :
    catchWrapper (Except.error ⟨str "removeSpace failed"⟩) = none := rfl

/-- Claim C7, amended: any failure during a transformation stage is caught
by the enclosing `try`/`catch`, logged to the console, and swallowed — the
function returns `undefined`, and no error value (typed or otherwise)
reaches the caller, regardless of which error was thrown. -/
theorem C7_amended_errors_swallowed (e : JsError) :
    catchWrapper (Except.error e) = none := rfl

theorem findChar_cons (c x : Char) (rest : Str) :
    findChar c (x :: rest) =
      if x = c then some 0 else (findChar c rest).map (· + 1) := rfl

/-- A found character splits the string at its reported index. -/
theorem findChar_decomp {c : Char} :
    ∀ {s : Str} {i : Nat}, findChar c s = some i →
      s = s.take i ++ c :: s.drop (i + 1)
  | [], i, h => by simp [findChar] at h
  | x :: rest, i, h => by
    rw [findChar_cons] at h
    by_cases hx : x = c
    · rw [if_pos hx] at h
      injection h with h2
      subst h2
      subst hx
      simp
    · rw [if_neg hx] at h
      cases hfr : findChar c rest with
      | none => rw [hfr] at h; simp at h
      | some j =>
        rw [hfr] at h
        simp only [Option.map_some'] at h
        injection h with h2
        subst h2
        have ih := findChar_decomp hfr
        show x :: rest = x :: rest.take j ++ c :: rest.drop (j + 1)
        nth_rewrite 1 [ih]
        simp

theorem occurs_append_right {p : Str} (u : Str) {v : Str} (h : occurs p v = true) :
    occurs p (u ++ v) = true := by
  induction u with
  | nil => exact h
  | cons x w ih =>
    rw [List.cons_append]
    exact occurs_cons_iff.mpr (Or.inr ih)

theorem occurs_cons_of {p : Str} {c : Char} {r : Str} (h : occurs p r = true) :
    occurs p (c :: r) = true :=
  occurs_cons_iff.mpr (Or.inr h)

/-- Definitional unfolding of one `matchTemplatesAux` step. -/
theorem matchTemplatesAux_cons (fuel : Nat) (c : Char) (rest : Str) :
    matchTemplatesAux (fuel + 1) (c :: rest) =
      if c = '`' then
        match findChar '`' rest with
        | some i =>
          ('`' :: rest.take i ++ ['`']) :: matchTemplatesAux fuel (rest.drop (i + 1))
        | none => matchTemplatesAux fuel rest
      else matchTemplatesAux fuel rest := rfl

/-- Every template literal the extractor reports is a substring of the
scanned text. -/
theorem matchTemplatesAux_occurs :
    ∀ (fuel : Nat) (s : Str) (l : Str), l ∈ matchTemplatesAux fuel s →
      occurs l s = true
  | 0, _, _, h => absurd h (List.not_mem_nil _)
  | _ + 1, [], _, h => absurd h (List.not_mem_nil _)
  | fuel + 1, c :: rest, l, h => by
    rw [matchTemplatesAux_cons] at h
    by_cases hc : c = '`'
    · rw [if_pos hc] at h
      subst hc
      cases hfc : findChar '`' rest with
      | some i =>
        rw [hfc] at h
        have hd := findChar_decomp hfc
        have hsplit : '`' :: rest = ('`' :: rest.take i ++ ['`']) ++ rest.drop (i + 1) := by
          nth_rewrite 1 [hd]
          simp
        rcases List.mem_cons.mp h with rfl | hmem
        · rw [hsplit]
          exact occurs_append_self [] (by simp)
        · rw [hsplit]
          exact occurs_append_right _ (matchTemplatesAux_occurs fuel _ l hmem)
      | none =>
        rw [hfc] at h
        exact occurs_cons_of (matchTemplatesAux_occurs fuel rest l h)
    · rw [if_neg hc] at h
      exact occurs_cons_of (matchTemplatesAux_occurs fuel rest l h)

/-- Every quoted literal the extractor reports is a substring of the scanned
text. -/
theorem matchQuotedAux_occurs :
    ∀ (fuel : Nat) (s : Str) (l : Str), l ∈ matchQuotedAux fuel s →
      occurs l s = true
  | 0, _, _, h => absurd h (List.not_mem_nil _)
  | _ + 1, [], _, h => absurd h (List.not_mem_nil _)
  | fuel + 1, c :: rest, l, h => by
    rw [matchQuotedAux_cons] at h
    by_cases hc : c = '"'
    · rw [if_pos hc] at h
      subst hc
      cases hfc : findChar '"' rest with
      | some i =>
        rw [hfc] at h
        have hd := findChar_decomp hfc
        have hsplit : '"' :: rest = ('"' :: rest.take i ++ ['"']) ++ rest.drop (i + 1) := by
          nth_rewrite 1 [hd]
          simp
        rcases List.mem_cons.mp h with rfl | hmem
        · rw [hsplit]
          exact occurs_append_self [] (by simp)
        · rw [hsplit]
          exact occurs_append_right _ (matchQuotedAux_occurs fuel _ l hmem)
      | none =>
        rw [hfc] at h
        exact occurs_cons_of (matchQuotedAux_occurs fuel rest l h)
    · rw [if_neg hc] at h
      by_cases hc2 : c = '\''
      · rw [if_pos hc2] at h
        subst hc2
        cases hfc : findChar '\'' rest with
        | some i =>
          rw [hfc] at h
          have hd := findChar_decomp hfc
          have hsplit : '\'' :: rest =
              ('\'' :: rest.take i ++ ['\'']) ++ rest.drop (i + 1) := by
            nth_rewrite 1 [hd]
            simp
          rcases List.mem_cons.mp h with rfl | hmem
          · rw [hsplit]
            exact occurs_append_self [] (by simp)
          · rw [hsplit]
            exact occurs_append_right _ (matchQuotedAux_occurs fuel _ l hmem)
        | none =>
          rw [hfc] at h
          exact occurs_cons_of (matchQuotedAux_occurs fuel rest l h)
      · rw [if_neg hc2] at h
        exact occurs_cons_of (matchQuotedAux_occurs fuel rest l h)

/-- Claim C8, amended.  `escapeLiterals` returns the template-literal
matches of the input first, then — on the input with template literals
deleted — the quoted-literal matches, except that when no quoted literal is
found a sentinel `none` (JavaScript `null`, from `Array.concat(null)`) is
appended instead of nothing; every reported template literal is a substring
of the input and every reported quoted literal is a substring of the
template-stripped input (not necessarily of the input itself). -/
theorem C8_amended (t : Str) :
    escapeLiterals t =
      (matchTemplates t).map some ++
        (if (matchQuoted (removeTemplates t)).isEmpty then [none]
          else (matchQuoted (removeTemplates t)).map some) ∧
    (∀ l ∈ matchTemplates t, occurs l t = true) ∧
    (∀ l ∈ matchQuoted (removeTemplates t), occurs l (removeTemplates t) = true) := by
  refine ⟨rfl, ?_, ?_⟩
  · intro l hl
    exact matchTemplatesAux_occurs t.length t l hl
  · intro l hl
    exact matchQuotedAux_occurs (removeTemplates t).length (removeTemplates t) l hl

/-- Claim C8, counterexample.  The claim states that `escapeLiterals`
returns a sequence whose elements are actual literal substrings of the
input.  When the quoted-literal pass matches nothing, `match` returns
`null` and `Array.concat(null)` appends `null` itself as an element: for
an input consisting of one template literal the result is
``[`a`, null]``. -/
theorem C8_counterexample :
    escapeLiterals (str "`a`") = [some (str "`a`"), none] ∧
    none ∈ escapeLiterals (str "`a`") := by decide

theorem replaceAllChar_not_mem_of {c r d : Char} {s : Str} (hd : d ∉ s)
    (hr : d ≠ r) : d ∉ replaceAllChar c r s :=
  fun h => (replaceAllChar_mem h).elim hd hr

/-- The three restoration passes leave none of the three control markers in
their result, whatever the input. -/
theorem ctrlFree_restores (m : Str) :
    ctrlFree (restoreQuotInRegexPattern (restoreAposInRegexPattern
      (restoreBacktickInRegexPattern m))) := by
  refine ⟨?_, ?_, ?_⟩
  · exact replaceAllChar_not_target (by decide) _
  · show chSI ∉ replaceAllChar chSO '"'
      (replaceAllChar chSI '\'' (replaceAllChar chDLE '`' m))
    exact replaceAllChar_not_mem_of (replaceAllChar_not_target (by decide) _)
      (by decide)
  · show chDLE ∉ replaceAllChar chSO '"'
      (replaceAllChar chSI '\'' (replaceAllChar chDLE '`' m))
    exact replaceAllChar_not_mem_of (replaceAllChar_not_mem_of
      (replaceAllChar_not_target (by decide) _) (by decide)) (by decide)

/-- A successful `parseScriptOpen` splits its input into the matched prefix
and the remainder. -/
theorem parseScriptOpen_append {s pre rest : Str}
    (h : parseScriptOpen s = some (pre, rest)) : pre ++ rest = s := by
  simp only [parseScriptOpen, spanWs] at h
  split at h
  next r2 heq =>
    split at h
    next hscript =>
      split at h
      next r6 heq2 =>
        simp only [Option.some.injEq, Prod.mk.injEq] at h
        obtain ⟨h2, h3⟩ := h
        subst h2
        subst h3
        have e1 := List.takeWhile_append_dropWhile jsIsSpace s
        have e2 := List.takeWhile_append_dropWhile jsIsSpace r2
        have e3 : str "script" ++ (r2.dropWhile jsIsSpace).drop 6 =
            r2.dropWhile jsIsSpace := by
          rcases List.isPrefixOf_iff_prefix.mp hscript with ⟨t, ht⟩
          rw [← ht, show (6 : Nat) = (str "script").length from by decide,
            List.drop_left]
        have e4 := List.takeWhile_append_dropWhile jsIsSpace
          ((r2.dropWhile jsIsSpace).drop 6)
        conv_rhs => rw [← e1, heq, ← e2, ← e3, ← e4, heq2]
        simp
      next => simp at h
    next => simp at h
  next => simp at h

/-- Characters of `stripLeadingScriptTag`'s output come from its input or
from the replacement text `<script>`. -/
theorem stripLeadingScriptTag_mem {s : Str} {d : Char}
    (h : d ∈ stripLeadingScriptTag s) : d ∈ s ∨ d ∈ str "<script>" := by
  cases hps : parseScriptOpen s with
  | none =>
    unfold stripLeadingScriptTag at h
    rw [hps] at h
    exact Or.inl h
  | some pr =>
    obtain ⟨pre, rest⟩ := pr
    unfold stripLeadingScriptTag at h
    rw [hps] at h
    have h' : d ∈ (if rest.head?.any jsIsSpace then
        str "<script>" ++ rest.dropWhile jsIsSpace else s) := h
    by_cases hw : rest.head?.any jsIsSpace
    · rw [if_pos hw] at h'
      rcases List.mem_append.mp h' with h2 | h2
      · exact Or.inr h2
      · have hrest : d ∈ rest := (List.dropWhile_sublist jsIsSpace).mem h2
        have happ := parseScriptOpen_append hps
        exact Or.inl (happ ▸ List.mem_append.mpr (Or.inr hrest))
    · rw [if_neg hw] at h'
      exact Or.inl h'

/-- None of the three control markers survives `midPipeline`, whatever the
comment-stripped text. -/
theorem midPipeline_ctrlFree (m : Str) : ctrlFree (midPipeline m) := by
  obtain ⟨h1, h2, h3⟩ := ctrlFree_restores (getLiteralsFromValiable (removeSpace
    (escapeBacktickInRegexPattern (escapeAposInRegexPattern (escapeQuotInRegexPattern
    (setLiteralsToValiable m (escapeLiterals m)))))) (escapeLiterals m))
  refine ⟨fun hm => ?_, fun hm => ?_, fun hm => ?_⟩
  · rcases stripLeadingScriptTag_mem hm with hx | hx
    · exact h1 hx
    · exact absurd hx (by decide)
  · rcases stripLeadingScriptTag_mem hm with hx | hx
    · exact h2 hx
    · exact absurd hx (by decide)
  · rcases stripLeadingScriptTag_mem hm with hx | hx
    · exact h3 hx
    · exact absurd hx (by decide)

/-- Every character of a preserved comment is a character of the scanned
text. -/
theorem preserveCommentAux_mem :
    ∀ (fuel : Nat) (s : Str) (l : Str), l ∈ preserveCommentAux fuel s →
      ∀ d ∈ l, d ∈ s
  | 0, _, _, h => absurd h (List.not_mem_nil _)
  | _ + 1, [], _, h => absurd h (List.not_mem_nil _)
  | fuel + 1, c :: rest, l, h => by
    rw [preserveCommentAux_cons] at h
    by_cases hp : (str "/*!").isPrefixOf (c :: rest)
    · rw [if_pos hp] at h
      cases hfs : findSub (str "*/") ((c :: rest).drop 3) with
      | some j =>
        rw [hfs] at h
        rcases List.mem_cons.mp h with rfl | hmem
        · intro d hd
          exact List.mem_of_mem_take hd
        · intro d hd
          exact List.mem_of_mem_drop
            (preserveCommentAux_mem fuel ((c :: rest).drop (3 + j + 2)) l hmem d hd)
      | none =>
        rw [hfs] at h
        intro d hd
        exact List.mem_cons_of_mem c (preserveCommentAux_mem fuel rest l h d hd)
    · rw [if_neg hp] at h
      intro d hd
      exact List.mem_cons_of_mem c (preserveCommentAux_mem fuel rest l h d hd)

/-- Characters of `comments.join("\n")` are newlines or characters of the
comments. -/
theorem joinNL_mem :
    ∀ {cs : List Str} {d : Char}, d ∈ joinNL cs → d = '\n' ∨ ∃ l ∈ cs, d ∈ l
  | [], _, h => absurd h (List.not_mem_nil _)
  | [c], _, h => Or.inr ⟨c, List.mem_cons_self c [], h⟩
  | c :: c2 :: cs, d, h => by
    have h' : d ∈ c ++ '\n' :: joinNL (c2 :: cs) := h
    rcases List.mem_append.mp h' with h2 | h2
    · exact Or.inr ⟨c, List.mem_cons_self c _, h2⟩
    · rcases List.mem_cons.mp h2 with rfl | h3
      · exact Or.inl rfl
      · rcases joinNL_mem h3 with h4 | ⟨l, hl, hdl⟩
        · exact Or.inl h4
        · exact Or.inr ⟨l, List.mem_cons_of_mem c hl, hdl⟩

theorem spliceComennts_mem {text : Str} {cs : List Str} {d : Char}
    (h : d ∈ spliceComennts text (some cs)) :
    d ∈ text ∨ d = '\n' ∨ ∃ l ∈ cs, d ∈ l := by
  rw [spliceComennts_some] at h
  cases hps : parseScriptOpen text with
  | none =>
    rw [hps] at h
    exact Or.inl h
  | some pr =>
    obtain ⟨pre, rest⟩ := pr
    rw [hps] at h
    have h' : d ∈ pre ++ '\n' :: joinNL cs ++ '\n' :: rest := h
    have happ := parseScriptOpen_append hps
    rcases List.mem_append.mp h' with h1 | h1
    · rcases List.mem_append.mp h1 with h2 | h2
      · exact Or.inl (happ ▸ List.mem_append.mpr (Or.inl h2))
      · rcases List.mem_cons.mp h2 with rfl | h3
        · exact Or.inr (Or.inl rfl)
        · rcases joinNL_mem h3 with h4 | h4
          · exact Or.inr (Or.inl h4)
          · exact Or.inr (Or.inr h4)
    · rcases List.mem_cons.mp h1 with rfl | h3
      · exact Or.inr (Or.inl rfl)
      · exact Or.inl (happ ▸ List.mem_append.mpr (Or.inr h3))

theorem concatComments_mem {text : Str} {cs : List Str} {d : Char}
    (h : d ∈ concatComments text (some cs)) :
    d ∈ text ∨ d = '\n' ∨ ∃ l ∈ cs, d ∈ l := by
  rw [concatComments_some] at h
  rcases List.mem_append.mp h with h1 | h1
  · rcases joinNL_mem h1 with h2 | h2
    · exact Or.inr (Or.inl h2)
    · exact Or.inr (Or.inr h2)
  · rcases List.mem_cons.mp h1 with rfl | h2
    · exact Or.inr (Or.inl rfl)
    · exact Or.inl h2

/-- Claim C9.  If the input contains none of the reserved control characters
U+000E, U+000F, U+0010, neither does the output of `minifyJsCode`: every
marker the regex-ambiguity escaping introduces is removed by the matching
restoration pass before the function returns. -/
theorem C9_no_control_markers (inp : Str) (b : Bool) (h : ctrlFree inp) :
    ctrlFree (minifyJsCode inp b) := by
  obtain ⟨hso, hsi, hdle⟩ := h
  have main : ∀ d : Char, d ∉ inp → (∀ m : Str, d ∉ midPipeline m) → d ≠ '\n' →
      d ∉ minifyJsCode inp b := by
    intro d hdinp hdmid hdnl hm
    rw [minify_of_m4 b rfl] at hm
    have hcl : ∀ cs, preserveComment inp = some cs → ∀ l ∈ cs, ∀ x ∈ l, x ∈ inp := by
      intro cs hcs l hl x hx
      have hl' : l ∈ preserveCommentAux inp.length inp := by
        unfold preserveComment at hcs
        cases haux : preserveCommentAux inp.length inp with
        | nil =>
          rw [haux] at hcs
          exact absurd hcs (by simp)
        | cons a as =>
          rw [haux] at hcs
          injection hcs with h2
          rw [h2]
          exact hl
      exact preserveCommentAux_mem inp.length inp l hl' x hx
    cases b with
    | true =>
      have hm' : d ∈ spliceComennts
          (midPipeline (removeMLComment (tabCrlfToSpace (removeSLComment
            (removeHTMLComment inp)))))
          (preserveComment inp) := hm
      cases hpc : preserveComment inp with
      | none =>
        rw [hpc, spliceComennts_none] at hm'
        exact hdmid _ hm'
      | some cs =>
        rw [hpc] at hm'
        rcases spliceComennts_mem hm' with h1 | h1 | ⟨l, hl, hdl⟩
        · exact hdmid _ h1
        · exact hdnl h1
        · exact hdinp (hcl cs hpc l hl d hdl)
    | false =>
      have hm' : d ∈ concatComments
          (midPipeline (removeMLComment (tabCrlfToSpace (removeSLComment
            (removeHTMLComment inp)))))
          (preserveComment inp) := hm
      cases hpc : preserveComment inp with
      | none =>
        rw [hpc, concatComments_none] at hm'
        exact hdmid _ hm'
      | some cs =>
        rw [hpc] at hm'
        rcases concatComments_mem hm' with h1 | h1 | ⟨l, hl, hdl⟩
        · exact hdmid _ h1
        · exact hdnl h1
        · exact hdinp (hcl cs hpc l hl d hdl)
  refine ⟨?_, ?_, ?_⟩
  · exact main chSO hso (fun m => (midPipeline_ctrlFree m).1) (by decide)
  · exact main chSI hsi (fun m => (midPipeline_ctrlFree m).2.1) (by decide)
  · exact main chDLE hdle (fun m => (midPipeline_ctrlFree m).2.2) (by decide)

/-- Witness for `C9_no_control_markers` at a concrete control-free input. -/
theorem C9_witness :
    ctrlFree (str "a = b;") ∧ ctrlFree (minifyJsCode (str "a = b;") false) :=
  ⟨by decide, C9_no_control_markers (str "a = b;") false (by decide)⟩

/-- Claim C10 (confirmed): after the non-throwing path of `minifyJsFile` or
`minifyJsInHtml`, a disabled log is empty (the record is pushed and then
`clearLog` immediately resets the array), and an enabled log has exactly the
old records followed by one new record. -/
theorem C10_log_invariant (mkURL : Str → Str) (st : MinifierState) (text : Str) :
    (st.logEnabled = false →
      (minifyJsFile mkURL st text).1.minificationLogs = [] ∧
      (minifyJsInHtml mkURL st text).1.minificationLogs = []) ∧
    (st.logEnabled = true →
      (∃ r, (minifyJsFile mkURL st text).1.minificationLogs =
        st.minificationLogs ++ [r]) ∧
      (∃ r, (minifyJsInHtml mkURL st text).1.minificationLogs =
        st.minificationLogs ++ [r])) := by
  constructor
  · intro h
    simp [minifyJsFile, minifyJsInHtml, clearLog, h]
  · intro h
    constructor
    · exact ⟨{ originalText := text, originalSize := encodeURISize text,
               originalDataURL := mkURL text,
               minifiedText := minifyJsCode text false,
               minifiedSize := encodeURISize (minifyJsCode text false),
               minifiedDataURL := mkURL (minifyJsCode text false) },
             by simp [minifyJsFile, clearLog, h]⟩
    · exact ⟨{ originalText := text, originalSize := encodeURISize text,
               originalDataURL := mkURL text,
               minifiedText := minifyJsInHtmlCore text,
               minifiedSize := encodeURISize (minifyJsInHtmlCore text),
               minifiedDataURL := mkURL (minifyJsInHtmlCore text) },
             by simp [minifyJsInHtml, clearLog, h]⟩

/-- Witness for C10 at a concrete state, text and URL generator. -/
theorem C10_log_invariant_witness :
    (minifyJsFile (fun s => s) ⟨[], false⟩ (str "x")).1.minificationLogs = [] :=
  ((C10_log_invariant (fun s => s) ⟨[], false⟩ (str "x")).1 rfl).1

end JsMin





